import Mathlib

/-!
Verification of the decant transcript-compaction core.

This file shallowly embeds the Python sources `strip.py`, `session.py` and
`compactor.py` of the decant repository in Lean 4 and proves properties of the
embedding.  Python strings are modelled as `List Char` (one entry per Unicode
code point, exactly Python's `str` indexing); JSON values as the mutual
inductive `J`/`JArr`/`JObj` (numbers restricted to integers, which covers all
numeric fields the program manipulates); Python dicts as `JObj` association
lists in insertion order, which is the iteration/serialization order of
Python 3.7+ dicts.  `dict.get` on a non-dict value raises in Python; the total
model returns the default there, so theorems quantify over the total model and
agree with Python on every input on which Python does not raise.
-/

set_option maxRecDepth 8000

abbrev Str := List Char

def strLit (s : String) : Str := s.data

mutual
/-- A JSON value as produced by `json.loads`: numbers are modelled as
integers (the program never manipulates fractional numbers). -/
inductive J where
  | null
  | bool (b : Bool)
  | num (n : Int)
  | str (s : Str)
  | arr (elems : JArr)
  | obj (fields : JObj)
/-- A JSON array (kept as a dedicated type so that recursion over `J`
is structural). -/
inductive JArr where
  | nil
  | cons (hd : J) (tl : JArr)
/-- A JSON object: association list of key/value pairs in insertion order,
modelling a Python dict. -/
inductive JObj where
  | nil
  | cons (key : Str) (val : J) (tl : JObj)
end

mutual
def J.beq : J → J → Bool
  | .null, .null => true
  | .bool a, .bool b => a == b
  | .num a, .num b => a == b
  | .str a, .str b => a == b
  | .arr a, .arr b => JArr.beq a b
  | .obj a, .obj b => JObj.beq a b
  | _, _ => false
def JArr.beq : JArr → JArr → Bool
  | .nil, .nil => true
  | .cons a as, .cons b bs => J.beq a b && JArr.beq as bs
  | _, _ => false
def JObj.beq : JObj → JObj → Bool
  | .nil, .nil => true
  | .cons k v t, .cons k2 v2 t2 => k == k2 && J.beq v v2 && JObj.beq t t2
  | _, _ => false
end

mutual
theorem J.beq_iff : ∀ a b : J, J.beq a b = true ↔ a = b
  | .null, .null => by simp [J.beq]
  | .bool a, .bool b => by simp [J.beq]
  | .num a, .num b => by simp [J.beq]
  | .str a, .str b => by simp [J.beq]
  | .arr a, .arr b => by simp [J.beq, JArr.beqA_iff a b]
  | .obj a, .obj b => by simp [J.beq, JObj.beqO_iff a b]
  | .null, .bool _ | .null, .num _ | .null, .str _ | .null, .arr _ | .null, .obj _
  | .bool _, .null | .bool _, .num _ | .bool _, .str _ | .bool _, .arr _ | .bool _, .obj _
  | .num _, .null | .num _, .bool _ | .num _, .str _ | .num _, .arr _ | .num _, .obj _
  | .str _, .null | .str _, .bool _ | .str _, .num _ | .str _, .arr _ | .str _, .obj _
  | .arr _, .null | .arr _, .bool _ | .arr _, .num _ | .arr _, .str _ | .arr _, .obj _
  | .obj _, .null | .obj _, .bool _ | .obj _, .num _ | .obj _, .str _ | .obj _, .arr _ => by
    simp [J.beq]
theorem JArr.beqA_iff : ∀ a b : JArr, JArr.beq a b = true ↔ a = b
  | .nil, .nil => by simp [JArr.beq]
  | .cons a as, .cons b bs => by
    simp [JArr.beq, J.beq_iff a b, JArr.beqA_iff as bs, Bool.and_eq_true]
  | .nil, .cons _ _ | .cons _ _, .nil => by simp [JArr.beq]
theorem JObj.beqO_iff : ∀ a b : JObj, JObj.beq a b = true ↔ a = b
  | .nil, .nil => by simp [JObj.beq]
  | .cons k v t, .cons k2 v2 t2 => by
    simp [JObj.beq, J.beq_iff v v2, JObj.beqO_iff t t2, Bool.and_eq_true, and_assoc]
  | .nil, .cons _ _ _ | .cons _ _ _, .nil => by simp [JObj.beq]
end

instance : DecidableEq J := fun a b =>
  decidable_of_iff (J.beq a b = true) (J.beq_iff a b)

instance : DecidableEq JArr := fun a b =>
  decidable_of_iff (JArr.beq a b = true) (JArr.beqA_iff a b)

instance : DecidableEq JObj := fun a b =>
  decidable_of_iff (JObj.beq a b = true) (JObj.beqO_iff a b)

/-- Convert a `JArr` to an ordinary list (used to state theorems with
standard list vocabulary). -/
def JArr.toList : JArr → List J
  | .nil => []
  | .cons h t => h :: t.toList

/-- Build a `JArr` from an ordinary list. -/
def JArr.ofList : List J → JArr
  | [] => .nil
  | h :: t => .cons h (JArr.ofList t)

@[simp] theorem JArr.toList_ofList (l : List J) : (JArr.ofList l).toList = l := by
  induction l with
  | nil => rfl
  | cons h t ih => simp [JArr.ofList, JArr.toList, ih]

@[simp] theorem JArr.ofList_toList : ∀ a : JArr, JArr.ofList a.toList = a
  | .nil => rfl
  | .cons h t => by simp [JArr.ofList, JArr.toList, JArr.ofList_toList t]

/-- `d.get(k)` for a Python dict: the value at the first (for an actual dict:
the unique) binding of `k`, if any. -/
def JObj.get? : JObj → Str → Option J
  | .nil, _ => none
  | .cons k v t, key => if k = key then some v else t.get? key

/-- `d.get(k, default)`. -/
def JObj.getD (o : JObj) (k : Str) (d : J) : J := (o.get? k).getD d

/-- `k in d` for a Python dict. -/
def JObj.hasKey (o : JObj) (k : Str) : Bool := (o.get? k).isSome

/-- `d[k] = v` for a Python dict: replace the value in place if the key is
present (keeping its position), otherwise append a new binding at the end. -/
def JObj.set : JObj → Str → J → JObj
  | .nil, key, v => .cons key v .nil
  | .cons k v0 t, key, v => if k = key then .cons k v t else .cons k v0 (t.set key v)

/-- `del d[k]` for a Python dict (removes every binding of `k`; identical to
Python on actual dicts, whose keys are unique). -/
def JObj.delAll : JObj → Str → JObj
  | .nil, _ => .nil
  | .cons k v t, key => if k = key then t.delAll key else .cons k v (t.delAll key)

/-- Keep only the bindings whose key satisfies `p` (a dict comprehension with
a key filter). -/
def JObj.filterKeys : JObj → (Str → Bool) → JObj
  | .nil, _ => .nil
  | .cons k v t, p => if p k then .cons k v (t.filterKeys p) else t.filterKeys p

/-- The list of keys of a dict, in insertion order. -/
def JObj.keys : JObj → List Str
  | .nil => []
  | .cons k _ t => k :: t.keys

/-- `value.get(k)` where `value` is an arbitrary JSON value: Python raises
unless it is a dict; the total model returns `none` on non-dicts. -/
def J.get? : J → Str → Option J
  | .obj o, k => o.get? k
  | _, _ => none

/-- `value.get(k, default)` on an arbitrary JSON value. -/
def J.getD (v : J) (k : Str) (d : J) : J := (v.get? k).getD d

/-- `k in value` (key membership; `false` on non-dicts). -/
def J.hasKey : J → Str → Bool
  | .obj o, k => o.hasKey k
  | _, _ => false

/-- `value[k] = v` on an arbitrary JSON value (identity on non-dicts, which
raise in Python). -/
def J.setKey : J → Str → J → J
  | .obj o, k, v => .obj (o.set k v)
  | j, _, _ => j

/-- Python truthiness of a JSON value: `None`, `False`, `0`, `""`, `[]` and
an empty dict are falsy, everything else truthy. -/
def pyTruthy : J → Bool
  | .null => false
  | .bool b => b
  | .num n => n != 0
  | .str s => !s.isEmpty
  | .arr .nil => false
  | .arr _ => true
  | .obj .nil => false
  | .obj _ => true

/-- Truthiness of `d.get(k)`-style lookups: a missing key yields `None`,
which is falsy. -/
def pyTruthyOpt : Option J → Bool
  | none => false
  | some v => pyTruthy v

-- Basic dict lemmas.

@[simp] theorem JObj.get?_set_self : ∀ (o : JObj) (k : Str) (v : J),
    (o.set k v).get? k = some v
  | .nil, k, v => by simp [JObj.set, JObj.get?]
  | .cons k0 v0 t, k, v => by
    by_cases h : k0 = k <;> simp [JObj.set, JObj.get?, h, JObj.get?_set_self t k v]

theorem JObj.get?_set_ne : ∀ (o : JObj) (k k2 : Str) (v : J), k ≠ k2 →
    (o.set k v).get? k2 = o.get? k2
  | .nil, k, k2, v, h => by simp [JObj.set, JObj.get?, h]
  | .cons k0 v0 t, k, k2, v, h => by
    by_cases h0 : k0 = k
    · subst h0; simp [JObj.set, JObj.get?, h]
    · simp [JObj.set, JObj.get?, h0, JObj.get?_set_ne t k k2 v h]

@[simp] theorem JObj.get?_delAll_self : ∀ (o : JObj) (k : Str),
    (o.delAll k).get? k = none
  | .nil, k => by simp [JObj.delAll, JObj.get?]
  | .cons k0 v0 t, k => by
    by_cases h : k0 = k <;> simp [JObj.delAll, JObj.get?, h, JObj.get?_delAll_self t k]

theorem JObj.get?_delAll_ne : ∀ (o : JObj) (k k2 : Str), k ≠ k2 →
    (o.delAll k).get? k2 = o.get? k2
  | .nil, k, k2, h => by simp [JObj.delAll, JObj.get?]
  | .cons k0 v0 t, k, k2, h => by
    by_cases h0 : k0 = k
    · subst h0
      have hne : ¬ k0 = k2 := h
      simp [JObj.delAll, JObj.get?, hne, JObj.get?_delAll_ne t k0 k2 h]
    · by_cases h2 : k0 = k2
      · subst h2
        simp [JObj.delAll, JObj.get?, h0, Ne.symm (Ne.symm h0)]
      · simp [JObj.delAll, JObj.get?, h0, h2, JObj.get?_delAll_ne t k k2 h]

@[simp] theorem JObj.hasKey_delAll_self (o : JObj) (k : Str) :
    (o.delAll k).hasKey k = false := by
  simp [JObj.hasKey]

theorem JObj.get?_filterKeys_none : ∀ (o : JObj) (p : Str → Bool) (k : Str),
    p k = false → (o.filterKeys p).get? k = none
  | .nil, p, k, h => by simp [JObj.filterKeys, JObj.get?]
  | .cons k0 v0 t, p, k, h => by
    by_cases h0 : p k0
    · simp only [JObj.filterKeys, h0, if_true, JObj.get?]
      have hne : ¬ k0 = k := fun hk => by subst hk; rw [h0] at h; cases h
      simp [hne, JObj.get?_filterKeys_none t p k h]
    · simp [JObj.filterKeys, h0, JObj.get?_filterKeys_none t p k h]

/-! ### Compact JSON serialization: `json.dumps(v, separators=(",", ":"))`
with the default `ensure_ascii=True` (non-ASCII characters are written as
`\uXXXX` escapes, astral characters as surrogate pairs). -/

/-- Lowercase hex digit for a value below 16. -/
def hexDigit (n : Nat) : Char :=
  if n < 10 then Char.ofNat (48 + n) else Char.ofNat (87 + n)

/-- Four lowercase hex digits (the `XXXX` of a `\uXXXX` escape). -/
def hex4 (n : Nat) : Str :=
  [hexDigit (n / 4096 % 16), hexDigit (n / 256 % 16), hexDigit (n / 16 % 16), hexDigit (n % 16)]

/-- How `json.dumps` (with `ensure_ascii=True`) renders one character inside
a string literal. -/
def escChar (c : Char) : Str :=
  if c = '"' then ['\\', '"']
  else if c = '\\' then ['\\', '\\']
  else if c = '\n' then ['\\', 'n']
  else if c = '\r' then ['\\', 'r']
  else if c = '\t' then ['\\', 't']
  else if c = '\x08' then ['\\', 'b']
  else if c = '\x0c' then ['\\', 'f']
  else if c.toNat < 0x20 ∨ 0x7e < c.toNat then
    if c.toNat < 0x10000 then '\\' :: 'u' :: hex4 c.toNat
    else
      '\\' :: 'u' :: hex4 (0xd800 + (c.toNat - 0x10000) / 0x400)
        ++ '\\' :: 'u' :: hex4 (0xdc00 + (c.toNat - 0x10000) % 0x400)
  else [c]

/-- Escape a whole string body. -/
def escString (s : Str) : Str := s.flatMap escChar

/-- A JSON string literal: quotes around the escaped body. -/
def dumpStr (s : Str) : Str := '"' :: escString s ++ ['"']

/-- Decimal digits of a natural number (fuel-based so that it reduces in the
kernel; the fuel `n + 1` always suffices since the argument shrinks by a
factor of ten per step). -/
def natDigitsAux : Nat → Nat → Str → Str
  | 0, _, acc => acc
  | fuel + 1, n, acc =>
    if n < 10 then Char.ofNat (48 + n) :: acc
    else natDigitsAux fuel (n / 10) (Char.ofNat (48 + n % 10) :: acc)

/-- Decimal representation of a natural number. -/
def natDigits (n : Nat) : Str := natDigitsAux (n + 1) n []

/-- Decimal representation of a Python integer. -/
def intDigits : Int → Str
  | .ofNat n => natDigits n
  | .negSucc n => '-' :: natDigits (n + 1)

mutual
/-- Compact serialization of a JSON value, exactly as
`json.dumps(v, separators=(",", ":"))` renders it. -/
def J.dumps : J → Str
  | .null => strLit "null"
  | .bool true => strLit "true"
  | .bool false => strLit "false"
  | .num n => intDigits n
  | .str s => dumpStr s
  | .arr a => '[' :: JArr.dumpsElems a ++ [']']
  | .obj o => '{' :: JObj.dumpsMembers o ++ ['}']
/-- The comma-separated element list of an array. -/
def JArr.dumpsElems : JArr → Str
  | .nil => []
  | .cons h .nil => J.dumps h
  | .cons h (.cons h2 t) => J.dumps h ++ ',' :: JArr.dumpsElems (.cons h2 t)
/-- The comma-separated `"key":value` member list of an object. -/
def JObj.dumpsMembers : JObj → Str
  | .nil => []
  | .cons k v .nil => dumpStr k ++ ':' :: J.dumps v
  | .cons k v (.cons k2 v2 t) =>
    dumpStr k ++ ':' :: J.dumps v ++ ',' :: JObj.dumpsMembers (.cons k2 v2 t)
end

/-- `len(s.encode("utf-8"))`: UTF-8 byte length of a string. -/
def utf8Len (s : Str) : Nat :=
  (s.map fun c =>
    if c.toNat < 0x80 then 1
    else if c.toNat < 0x800 then 2
    else if c.toNat < 0x10000 then 3
    else 4).sum

/-- `_msg_bytes(msg)`: serialized size of a message,
`len(json.dumps(msg, separators=(",", ":")).encode("utf-8"))`. -/
def msg_bytes (m : JObj) : Nat := utf8Len (J.dumps (J.obj m))

/-- Total serialized size of a message list (`sum(_msg_bytes(m) for m in msgs)`). -/
def totalBytes (msgs : List JObj) : Nat := (msgs.map msg_bytes).sum

/-! ### `strip.py`: the four noise-stripping strategies -/

/-- `TOOL_OUTPUT_MAX_BYTES` (strip.py line 21). -/
def TOOL_OUTPUT_MAX_BYTES : Nat := 8192

/-- `TOOL_OUTPUT_MAX_LINES` (strip.py line 22). -/
def TOOL_OUTPUT_MAX_LINES : Nat := 100

/-- `STRIP_INNER` (strip.py line 25; a Python set — deletion of the fields is
order-independent, so a fixed iteration order is adequate). -/
def STRIP_INNER : List Str := [strLit "usage", strLit "stop_reason", strLit "stop_sequence"]

/-- `STRIP_OUTER` (strip.py line 26). -/
def STRIP_OUTER : List Str := [strLit "costUSD", strLit "duration", strLit "apiDuration"]

/-- `_get_content_blocks(msg)`: the inner `message.content` when it is a
list, else `[]`. -/
def get_content_blocks (m : JObj) : JArr :=
  match (m.getD (strLit "message") (J.obj .nil)).get? (strLit "content") with
  | some (J.arr a) => a
  | _ => .nil

/-- `_set_content_blocks(msg, blocks)`: a copy of `msg` with the inner
content replaced (no-op if the `message` key is absent; a non-dict `message`
value raises in Python and is unreachable whenever blocks were extracted). -/
def set_content_blocks (m : JObj) (blocks : JArr) : JObj :=
  match m.get? (strLit "message") with
  | some (J.obj inner) => m.set (strLit "message") (J.obj (inner.set (strLit "content") (J.arr blocks)))
  | _ => m

/-- `msg.get("type") == "progress"`. -/
def isProgress (m : JObj) : Bool := m.get? (strLit "type") = some (J.str (strLit "progress"))

/-- `_collapse_progress(messages)` (strip.py lines 51-70): within each maximal
run of consecutive `progress` messages keep only the last one and add the
serialized size of every dropped one to `saved`.  The index-based while loop
of the source is rendered as structural recursion: a message is dropped
exactly when it and its immediate successor are both `progress` messages
(i.e. it is a non-final member of a run). -/
def collapse_progress : List JObj → List JObj × Nat
  | [] => ([], 0)
  | [m] => ([m], 0)
  | m :: m2 :: rest =>
    let r := collapse_progress (m2 :: rest)
    if isProgress m ∧ isProgress m2 then (r.1, msg_bytes m + r.2)
    else (m :: r.1, r.2)

/-- `{k: v for k, v in block.items() if k != "signature"}` (identity on
non-dict blocks, which are unreachable here). -/
def delSignature : J → J
  | .obj o => .obj (o.filterKeys (fun k => decide (k ≠ strLit "signature")))
  | j => j

/-- The block loop of `_strip_thinking` (strip.py lines 87-98): drop
`thinking` blocks, remove `signature` fields, and report whether anything
changed. -/
def strip_thinking_blocks : JArr → JArr × Bool
  | .nil => (.nil, false)
  | .cons b t =>
    let r := strip_thinking_blocks t
    if b.getD (strLit "type") (J.str []) = J.str (strLit "thinking") then (r.1, true)
    else if b.hasKey (strLit "signature") then (.cons (delSignature b) r.1, true)
    else (.cons b r.1, r.2)

/-- The per-message body of `_strip_thinking` (strip.py lines 77-110),
including the strict size-reduction guard. -/
def strip_thinking_msg (m : JObj) : JObj × Nat :=
  if m.get? (strLit "type") ≠ some (J.str (strLit "assistant")) then (m, 0)
  else
    let blocks := get_content_blocks m
    if blocks = .nil then (m, 0)
    else
      let r := strip_thinking_blocks blocks
      if r.2 then
        let newMsg := set_content_blocks m r.1
        if msg_bytes newMsg < msg_bytes m then (newMsg, msg_bytes m - msg_bytes newMsg)
        else (m, 0)
      else (m, 0)

/-- `_strip_thinking(messages)` (strip.py lines 73-111). -/
def strip_thinking : List JObj → List JObj × Nat
  | [] => ([], 0)
  | m :: rest =>
    ((strip_thinking_msg m).1 :: (strip_thinking rest).1,
      (strip_thinking_msg m).2 + (strip_thinking rest).2)

/-- The per-message body of `_strip_metadata` (strip.py lines 118-142):
delete `STRIP_INNER` fields from the nested `message` dict and `STRIP_OUTER`
fields from the record itself, subject to the size-reduction guard. -/
def strip_metadata_msg (m : JObj) : JObj × Nat :=
  let innerChanged :=
    match m.get? (strLit "message") with
    | some (J.obj inner) => STRIP_INNER.any inner.hasKey
    | _ => false
  let m1 :=
    match m.get? (strLit "message") with
    | some (J.obj inner) =>
      m.set (strLit "message") (J.obj (STRIP_INNER.foldl JObj.delAll inner))
    | _ => m
  let outerChanged := STRIP_OUTER.any m.hasKey
  let m2 := STRIP_OUTER.foldl JObj.delAll m1
  if innerChanged || outerChanged then
    if msg_bytes m2 < msg_bytes m then (m2, msg_bytes m - msg_bytes m2) else (m, 0)
  else (m, 0)

/-- `_strip_metadata(messages)` (strip.py lines 114-143). -/
def strip_metadata : List JObj → List JObj × Nat
  | [] => ([], 0)
  | m :: rest =>
    ((strip_metadata_msg m).1 :: (strip_metadata rest).1,
      (strip_metadata_msg m).2 + (strip_metadata rest).2)

/-- `content.split("\n")`. -/
def splitNl : Str → List Str
  | [] => [[]]
  | c :: cs =>
    if c = '\n' then [] :: splitNl cs
    else
      match splitNl cs with
      | [] => [[c]]
      | l :: ls => (c :: l) :: ls

/-- `"\n".join(lines)`. -/
def joinNl : List Str → Str
  | [] => []
  | [s] => s
  | s :: s2 :: rest => s ++ '\n' :: joinNl (s2 :: rest)

/-- The line-based trim branch of `_trim_tool_output` (strip.py lines
177-184): keep the first and last `TOOL_OUTPUT_MAX_LINES/2` lines around a
marker recording how many lines were elided. -/
def lineTrimmed (content : Str) : Str :=
  let lines := splitNl content
  let keep := TOOL_OUTPUT_MAX_LINES / 2
  joinNl (lines.take keep
    ++ ('\n' :: strLit "... [" ++ natDigits (lines.length - TOOL_OUTPUT_MAX_LINES)
        ++ strLit " lines trimmed] ..." ++ ['\n'])
    :: lines.drop (lines.length - keep))

/-- The byte-based trim branch of `_trim_tool_output` (strip.py lines
186-191): keep the first and last `TOOL_OUTPUT_MAX_BYTES/2` characters around
a marker recording how many bytes were elided (the source slices by
character position and measures by UTF-8 bytes, exactly as modelled). -/
def byteTrimmed (content : Str) : Str :=
  let half := TOOL_OUTPUT_MAX_BYTES / 2
  content.take half
    ++ ('\n' :: strLit "... [" ++ natDigits (utf8Len content - TOOL_OUTPUT_MAX_BYTES)
        ++ strLit " bytes trimmed] ..." ++ ['\n'])
    ++ content.drop (content.length - half)

/-- `content.count("\n") + 1` (strip.py line 169). -/
def countLinesPy (s : Str) : Nat := s.count '\n' + 1

/-- The per-block body of the `_trim_tool_output` loop (strip.py lines
158-194): a `tool_result` block with string content is trimmed when its size
fails the `bytes ≤ 8192 and lines ≤ 100` test, by lines when the line count
exceeds the threshold and by bytes otherwise.  Returns the (possibly
replaced) block and whether the `changed` flag was set for it. -/
def trim_block (block : J) : J × Bool :=
  if block.get? (strLit "type") ≠ some (J.str (strLit "tool_result")) then (block, false)
  else
    match block.getD (strLit "content") (J.str []) with
    | J.str content =>
      if utf8Len content ≤ TOOL_OUTPUT_MAX_BYTES ∧ countLinesPy content ≤ TOOL_OUTPUT_MAX_LINES then
        (block, false)
      else
        let newContent :=
          if (splitNl content).length > TOOL_OUTPUT_MAX_LINES then lineTrimmed content
          else byteTrimmed content
        (block.setKey (strLit "content") (J.str newContent), true)
    | _ => (block, false)

/-- The block loop of `_trim_tool_output`. -/
def trim_blocks : JArr → JArr × Bool
  | .nil => (.nil, false)
  | .cons b t =>
    (.cons (trim_block b).1 (trim_blocks t).1, (trim_block b).2 || (trim_blocks t).2)

/-- The per-message body of `_trim_tool_output` (strip.py lines 150-206),
including the strict size-reduction guard. -/
def trim_tool_output_msg (m : JObj) : JObj × Nat :=
  let blocks := get_content_blocks m
  if blocks = .nil then (m, 0)
  else
    let r := trim_blocks blocks
    if r.2 then
      let newMsg := set_content_blocks m r.1
      if msg_bytes newMsg < msg_bytes m then (newMsg, msg_bytes m - msg_bytes newMsg)
      else (m, 0)
    else (m, 0)

/-- `_trim_tool_output(messages)` (strip.py lines 146-207). -/
def trim_tool_output : List JObj → List JObj × Nat
  | [] => ([], 0)
  | m :: rest =>
    ((trim_tool_output_msg m).1 :: (trim_tool_output rest).1,
      (trim_tool_output_msg m).2 + (trim_tool_output rest).2)

/-- `strip_messages(messages)` (strip.py lines 210-243): chain the four
strategies and report the per-strategy savings breakdown (the floating-point
percentage of the source is omitted). -/
def strip_messages (messages : List JObj) : List JObj × List (Str × Nat) :=
  let r1 := collapse_progress messages
  let r2 := strip_thinking r1.1
  let r3 := strip_metadata r2.1
  let r4 := trim_tool_output r3.1
  (r4.1, [(strLit "progress-collapse", r1.2), (strLit "thinking-strip", r2.2),
        (strLit "metadata-strip", r3.2), (strLit "tool-output-trim", r4.2)])

/-! ### Lemmas about the stripping strategies (claims C1, C10) -/

theorem JObj.get?_filterKeys_pos : ∀ (o : JObj) (p : Str → Bool) (k : Str),
    p k = true → (o.filterKeys p).get? k = o.get? k
  | .nil, p, k, h => by simp [JObj.filterKeys, JObj.get?]
  | .cons k0 v0 t, p, k, h => by
    by_cases hk : k0 = k
    · subst hk
      simp [JObj.filterKeys, JObj.get?, h]
    · by_cases h0 : p k0 <;>
        simp [JObj.filterKeys, JObj.get?, h0, hk, JObj.get?_filterKeys_pos t p k h]

theorem JObj.get?_delAll_none (o : JObj) (k k2 : Str) (h : o.get? k2 = none) :
    (o.delAll k).get? k2 = none := by
  by_cases hk : k = k2
  · subst hk; simp
  · rw [JObj.get?_delAll_ne o k k2 hk]; exact h

theorem JObj.get?_foldl_delAll_ne (ks : List Str) (o : JObj) (k : Str) (h : k ∉ ks) :
    (ks.foldl JObj.delAll o).get? k = o.get? k := by
  induction ks generalizing o with
  | nil => rfl
  | cons k0 t ih =>
    simp only [List.foldl_cons]
    rw [ih (o.delAll k0) (fun hm => h (List.mem_cons_of_mem _ hm))]
    exact JObj.get?_delAll_ne o k0 k (fun he => h (he ▸ List.mem_cons_self _ _))

theorem JObj.get?_foldl_delAll_mem (ks : List Str) (o : JObj) (k : Str) (h : k ∈ ks) :
    (ks.foldl JObj.delAll o).get? k = none := by
  induction ks generalizing o with
  | nil => cases h
  | cons k0 t ih =>
    simp only [List.foldl_cons]
    rcases List.mem_cons.mp h with he | hm
    · subst he
      by_cases ht : k ∈ t
      · exact ih _ ht
      · rw [JObj.get?_foldl_delAll_ne t _ k ht]; simp
    · exact ih _ hm

-- progress-collapse

/-- After one collapapse pass no two adjacent records are both progress
records. -/
theorem collapse_progress_chain : ∀ msgs : List JObj,
    List.Chain' (fun a b => ¬(isProgress a ∧ isProgress b)) (collapse_progress msgs).1
  | [] => by simp [collapse_progress]
  | [m] => by simp [collapse_progress]
  | m :: m2 :: rest => by
    have ih := collapse_progress_chain (m2 :: rest)
    by_cases h : isProgress m ∧ isProgress m2
    · simpa [collapse_progress, h] using ih
    · simp only [collapse_progress, h, if_false]
      rw [List.chain'_cons']
      refine ⟨?_, ih⟩
      intro y hy
      by_cases hm : isProgress m
      · have hm2 : ¬ isProgress m2 := fun c => h ⟨hm, c⟩
        have hhead : (collapse_progress (m2 :: rest)).1.head? = some m2 := by
          rcases rest with _ | ⟨m3, rest2⟩
          · simp [collapse_progress]
          · have hnc : ¬ (isProgress m2 ∧ isProgress m3) := fun c => hm2 c.1
            simp [collapse_progress, hnc]
        rw [hhead] at hy
        have hym : m2 = y := by simpa using hy
        subst hym
        exact fun c => hm2 c.2
      · exact fun c => hm c.1

/-- A list with no adjacent pair of progress records is a fixpoint of
progress collapsing, with zero savings. -/
theorem collapse_progress_fixed : ∀ msgs : List JObj,
    List.Chain' (fun a b => ¬(isProgress a ∧ isProgress b)) msgs →
    collapse_progress msgs = (msgs, 0)
  | [], _ => rfl
  | [m], _ => rfl
  | m :: m2 :: rest, h => by
    have h1 : ¬ (isProgress m ∧ isProgress m2) := (List.chain'_cons.mp h).1
    have h2 := (List.chain'_cons.mp h).2
    simp [collapse_progress, h1, collapse_progress_fixed (m2 :: rest) h2]

-- thinking-strip

/-- `delSignature` does not touch keys other than `signature`. -/
theorem delSignature_get?_ne (b : J) (k : Str) (h : k ≠ strLit "signature") :
    (delSignature b).get? k = b.get? k := by
  cases b <;> simp [delSignature, J.get?]
  case obj o =>
    exact JObj.get?_filterKeys_pos o _ k (by simp [h])

@[simp] theorem delSignature_hasKey (b : J) :
    (delSignature b).hasKey (strLit "signature") = false := by
  cases b <;> simp [delSignature, J.hasKey, JObj.hasKey]
  exact JObj.get?_filterKeys_none _ _ _ (by simp)

/-- One pass of the thinking-block loop leaves no thinking block and no
`signature` field, so a second pass reports no change. -/
theorem strip_thinking_blocks_idem : ∀ bs : JArr,
    strip_thinking_blocks (strip_thinking_blocks bs).1 = ((strip_thinking_blocks bs).1, false)
  | .nil => rfl
  | .cons b t => by
    have ih := strip_thinking_blocks_idem t
    by_cases hth : b.getD (strLit "type") (J.str []) = J.str (strLit "thinking")
    · simp [strip_thinking_blocks, hth, ih]
    · by_cases hsig : b.hasKey (strLit "signature")
      · have hty : (delSignature b).getD (strLit "type") (J.str []) =
            b.getD (strLit "type") (J.str []) := by
          unfold J.getD
          rw [delSignature_get?_ne b _ (by decide)]
        simp [strip_thinking_blocks, hth, hsig, ih, hty]
      · simp [strip_thinking_blocks, hth, hsig, ih]

/-- When a message has a non-empty block list, its `message` field is a dict
whose `content` is that block array. -/
theorem get_content_blocks_eq (m : JObj) (hne : get_content_blocks m ≠ .nil) :
    ∃ inner, m.get? (strLit "message") = some (J.obj inner) ∧
      inner.get? (strLit "content") = some (J.arr (get_content_blocks m)) := by
  rcases hct : (m.getD (strLit "message") (J.obj .nil)).get? (strLit "content") with _ | w
  · exact absurd (by simp [get_content_blocks, hct]) hne
  · cases w with
    | arr a =>
      have hb : get_content_blocks m = a := by simp [get_content_blocks, hct]
      rcases hmsg : m.get? (strLit "message") with _ | v
      · rw [JObj.getD, hmsg] at hct
        simp [J.get?, JObj.get?] at hct
      · cases v <;> rw [JObj.getD, hmsg, Option.getD_some] at hct <;>
          simp only [J.get?] at hct <;> try cases hct
        case obj inner =>
          exact ⟨inner, rfl, by rw [hb]; exact hct⟩
    | null => exact absurd (by simp [get_content_blocks, hct]) hne
    | bool b => exact absurd (by simp [get_content_blocks, hct]) hne
    | num n => exact absurd (by simp [get_content_blocks, hct]) hne
    | str sv => exact absurd (by simp [get_content_blocks, hct]) hne
    | obj o => exact absurd (by simp [get_content_blocks, hct]) hne

/-- Reading the blocks back out of `set_content_blocks`. -/
theorem get_content_blocks_set (m : JObj) (inner : JObj) (nb : JArr)
    (hmsg : m.get? (strLit "message") = some (J.obj inner)) :
    get_content_blocks (set_content_blocks m nb) = nb := by
  unfold set_content_blocks get_content_blocks
  rw [hmsg]
  simp [JObj.getD, JObj.get?_set_self, J.get?, JObj.get?_set_self]

/-- `set_content_blocks` only touches the `message` field. -/
theorem set_content_blocks_get?_ne (m : JObj) (nb : JArr) (k : Str)
    (h : k ≠ strLit "message") :
    (set_content_blocks m nb).get? k = m.get? k := by
  unfold set_content_blocks
  rcases hmsg : m.get? (strLit "message") with _ | v
  · rfl
  · cases v <;> try rfl
    exact JObj.get?_set_ne m _ k _ (fun he => h he.symm)

/-- A second thinking-strip pass on a message whose block loop reports no
change returns the message unchanged with zero savings. -/
theorem strip_thinking_msg_noop (m : JObj)
    (h : (strip_thinking_blocks (get_content_blocks m)).2 = false) :
    strip_thinking_msg m = (m, 0) := by
  simp only [strip_thinking_msg]
  split_ifs with h1 h2 h3 h4 <;> first | rfl | (rw [h] at h3; cases h3)

/-- A single thinking-strip pass is idempotent on each message. -/
theorem strip_thinking_msg_idem (m : JObj) :
    strip_thinking_msg (strip_thinking_msg m).1 = ((strip_thinking_msg m).1, 0) := by
  by_cases hty : m.get? (strLit "type") = some (J.str (strLit "assistant"))
  case neg =>
    have hres : strip_thinking_msg m = (m, 0) := by simp [strip_thinking_msg, hty]
    rw [hres]; exact hres
  case pos =>
  by_cases hbl : get_content_blocks m = .nil
  · have hres : strip_thinking_msg m = (m, 0) := by simp [strip_thinking_msg, hty, hbl]
    rw [hres]; exact hres
  · by_cases hch : (strip_thinking_blocks (get_content_blocks m)).2 = true
    · by_cases hsz : msg_bytes (set_content_blocks m (strip_thinking_blocks (get_content_blocks m)).1) < msg_bytes m
      · obtain ⟨inner, hmsg, hct⟩ := get_content_blocks_eq m hbl
        have hres : strip_thinking_msg m =
            (set_content_blocks m (strip_thinking_blocks (get_content_blocks m)).1,
             msg_bytes m - msg_bytes (set_content_blocks m (strip_thinking_blocks (get_content_blocks m)).1)) := by
          simp [strip_thinking_msg, hty, hbl, hch, hsz]
        rw [hres]
        apply strip_thinking_msg_noop
        rw [get_content_blocks_set m inner _ hmsg]
        simp [strip_thinking_blocks_idem]
      · have hres : strip_thinking_msg m = (m, 0) := by
          simp [strip_thinking_msg, hty, hbl, hch, hsz]
        rw [hres]; exact hres
    · have hres : strip_thinking_msg m = (m, 0) := by
        simp [strip_thinking_msg, hty, hbl, hch]
      rw [hres]; exact hres

/-- thinking-strip is idempotent on message lists. -/
theorem strip_thinking_idem : ∀ msgs : List JObj,
    strip_thinking (strip_thinking msgs).1 = ((strip_thinking msgs).1, 0)
  | [] => rfl
  | m :: rest => by
    have ih := strip_thinking_idem rest
    have hm := strip_thinking_msg_idem m
    simp only [strip_thinking] at *
    rw [hm, ih]
    simp [hm, ih]

-- metadata-strip

/-- A second metadata-strip pass on a message with none of the stripped
fields present returns it unchanged with zero savings. -/
theorem strip_metadata_msg_noop (m : JObj)
    (hin : (match m.get? (strLit "message") with
            | some (J.obj inner) => STRIP_INNER.any inner.hasKey
            | _ => false) = false)
    (hout : STRIP_OUTER.any m.hasKey = false) :
    strip_metadata_msg m = (m, 0) := by
  simp only [strip_metadata_msg, hin, hout, Bool.or_self, Bool.false_eq_true, if_false]

/-- After deleting the outer fields, the `message` field is untouched. -/
theorem strip_metadata_outer_msg (m1 : JObj) :
    (STRIP_OUTER.foldl JObj.delAll m1).get? (strLit "message") = m1.get? (strLit "message") :=
  JObj.get?_foldl_delAll_ne _ _ _ (by decide)

/-- After deleting the outer fields, none of them remains. -/
theorem strip_metadata_outer_gone (m1 : JObj) :
    STRIP_OUTER.any (STRIP_OUTER.foldl JObj.delAll m1).hasKey = false := by
  simp only [STRIP_OUTER, List.any_cons, List.any_nil, Bool.or_false, JObj.hasKey]
  rw [JObj.get?_foldl_delAll_mem _ _ _ (by decide),
    JObj.get?_foldl_delAll_mem _ _ _ (by decide),
    JObj.get?_foldl_delAll_mem _ _ _ (by decide)]
  rfl

/-- After deleting the inner fields, none of them remains. -/
theorem strip_metadata_inner_gone (inner : JObj) :
    STRIP_INNER.any (STRIP_INNER.foldl JObj.delAll inner).hasKey = false := by
  simp only [STRIP_INNER, List.any_cons, List.any_nil, Bool.or_false, JObj.hasKey]
  rw [JObj.get?_foldl_delAll_mem _ _ _ (by decide),
    JObj.get?_foldl_delAll_mem _ _ _ (by decide),
    JObj.get?_foldl_delAll_mem _ _ _ (by decide)]
  rfl

/-- A single metadata-strip pass is idempotent on each message. -/
theorem strip_metadata_msg_idem (m : JObj) :
    strip_metadata_msg (strip_metadata_msg m).1 = ((strip_metadata_msg m).1, 0) := by
  have hstep : strip_metadata_msg m = (m, 0) ∨
      (∃ m2, strip_metadata_msg m = (m2, msg_bytes m - msg_bytes m2) ∧
        (match m2.get? (strLit "message") with
         | some (J.obj inner) => STRIP_INNER.any inner.hasKey
         | _ => false) = false ∧
        STRIP_OUTER.any m2.hasKey = false) := by
    rcases hmsg : m.get? (strLit "message") with _ | v
    case none =>
      simp only [strip_metadata_msg, hmsg]
      split_ifs with h1 h2
      · refine Or.inr ⟨_, rfl, ?_, strip_metadata_outer_gone m⟩
        rw [strip_metadata_outer_msg, hmsg]
      · exact Or.inl rfl
      · exact Or.inl rfl
    case some =>
      cases v with
      | obj inner =>
        simp only [strip_metadata_msg, hmsg]
        split_ifs with h1 h2
        · refine Or.inr ⟨_, rfl, ?_, strip_metadata_outer_gone _⟩
          rw [strip_metadata_outer_msg, JObj.get?_set_self]
          exact strip_metadata_inner_gone inner
        · exact Or.inl rfl
        · exact Or.inl rfl
      | null =>
        simp only [strip_metadata_msg, hmsg]
        split_ifs with h1 h2
        · refine Or.inr ⟨_, rfl, ?_, strip_metadata_outer_gone m⟩
          rw [strip_metadata_outer_msg, hmsg]
        · exact Or.inl rfl
        · exact Or.inl rfl
      | bool b =>
        simp only [strip_metadata_msg, hmsg]
        split_ifs with h1 h2
        · refine Or.inr ⟨_, rfl, ?_, strip_metadata_outer_gone m⟩
          rw [strip_metadata_outer_msg, hmsg]
        · exact Or.inl rfl
        · exact Or.inl rfl
      | num n =>
        simp only [strip_metadata_msg, hmsg]
        split_ifs with h1 h2
        · refine Or.inr ⟨_, rfl, ?_, strip_metadata_outer_gone m⟩
          rw [strip_metadata_outer_msg, hmsg]
        · exact Or.inl rfl
        · exact Or.inl rfl
      | str sv =>
        simp only [strip_metadata_msg, hmsg]
        split_ifs with h1 h2
        · refine Or.inr ⟨_, rfl, ?_, strip_metadata_outer_gone m⟩
          rw [strip_metadata_outer_msg, hmsg]
        · exact Or.inl rfl
        · exact Or.inl rfl
      | arr a =>
        simp only [strip_metadata_msg, hmsg]
        split_ifs with h1 h2
        · refine Or.inr ⟨_, rfl, ?_, strip_metadata_outer_gone m⟩
          rw [strip_metadata_outer_msg, hmsg]
        · exact Or.inl rfl
        · exact Or.inl rfl
  rcases hstep with hres | ⟨m2, hres, hin, hout⟩
  · rw [hres]; exact hres
  · rw [hres]
    exact strip_metadata_msg_noop m2 hin hout

/-- metadata-strip is idempotent on message lists. -/
theorem strip_metadata_idem : ∀ msgs : List JObj,
    strip_metadata (strip_metadata msgs).1 = ((strip_metadata msgs).1, 0)
  | [] => rfl
  | m :: rest => by
    have ih := strip_metadata_idem rest
    have hm := strip_metadata_msg_idem m
    simp only [strip_metadata] at *
    rw [hm, ih]
    simp [hm, ih]

-- byte accounting (claim C10)

@[simp] theorem totalBytes_nil : totalBytes [] = 0 := rfl

@[simp] theorem totalBytes_cons (m : JObj) (l : List JObj) :
    totalBytes (m :: l) = msg_bytes m + totalBytes l := by
  simp [totalBytes]

theorem strip_thinking_msg_bytes (m : JObj) :
    msg_bytes (strip_thinking_msg m).1 + (strip_thinking_msg m).2 = msg_bytes m := by
  simp only [strip_thinking_msg]
  split_ifs <;> simp <;> omega

theorem strip_metadata_msg_bytes (m : JObj) :
    msg_bytes (strip_metadata_msg m).1 + (strip_metadata_msg m).2 = msg_bytes m := by
  simp only [strip_metadata_msg]
  split_ifs <;> simp <;> omega

theorem trim_tool_output_msg_bytes (m : JObj) :
    msg_bytes (trim_tool_output_msg m).1 + (trim_tool_output_msg m).2 = msg_bytes m := by
  simp only [trim_tool_output_msg]
  split_ifs <;> simp <;> omega

theorem collapse_progress_bytes : ∀ msgs : List JObj,
    totalBytes (collapse_progress msgs).1 + (collapse_progress msgs).2 = totalBytes msgs
  | [] => rfl
  | [m] => by simp [collapse_progress]
  | m :: m2 :: rest => by
    have ih := collapse_progress_bytes (m2 :: rest)
    by_cases h : isProgress m ∧ isProgress m2
    · simp only [totalBytes_cons] at *
      simp [collapse_progress, h]
      omega
    · simp only [totalBytes_cons] at *
      simp [collapse_progress, h]
      omega

theorem strip_thinking_bytes : ∀ msgs : List JObj,
    totalBytes (strip_thinking msgs).1 + (strip_thinking msgs).2 = totalBytes msgs
  | [] => rfl
  | m :: rest => by
    have ih := strip_thinking_bytes rest
    have hm := strip_thinking_msg_bytes m
    simp only [strip_thinking, totalBytes_cons]
    omega

theorem strip_metadata_bytes : ∀ msgs : List JObj,
    totalBytes (strip_metadata msgs).1 + (strip_metadata msgs).2 = totalBytes msgs
  | [] => rfl
  | m :: rest => by
    have ih := strip_metadata_bytes rest
    have hm := strip_metadata_msg_bytes m
    simp only [strip_metadata, totalBytes_cons]
    omega

theorem trim_tool_output_bytes : ∀ msgs : List JObj,
    totalBytes (trim_tool_output msgs).1 + (trim_tool_output msgs).2 = totalBytes msgs
  | [] => rfl
  | m :: rest => by
    have ih := trim_tool_output_bytes rest
    have hm := trim_tool_output_msg_bytes m
    simp only [trim_tool_output, totalBytes_cons]
    omega

-- supporting computation lemmas for witnesses and the C2 theorem

theorem splitNl_ne_nil : ∀ s : Str, splitNl s ≠ []
  | [] => by simp [splitNl]
  | c :: cs => by
    by_cases h : c = '\n'
    · simp [splitNl, h]
    · simp only [splitNl, h, if_false]
      rcases hs : splitNl cs with _ | ⟨l, ls⟩ <;> simp

theorem splitNl_length : ∀ s : Str, (splitNl s).length = s.count '\n' + 1
  | [] => by simp [splitNl]
  | c :: cs => by
    by_cases h : c = '\n'
    · subst h
      simp [splitNl, splitNl_length cs, List.count_cons]
    · simp only [splitNl, h, if_false]
      rcases hs : splitNl cs with _ | ⟨l, ls⟩
      · exact absurd hs (splitNl_ne_nil cs)
      · have := splitNl_length cs
        rw [hs] at this
        simp only [List.length_cons] at this ⊢
        rw [this]
        have hc : ('\n' == c) = false := by
          simp [BEq.beq]
          exact fun he => h he.symm
        simp [List.count_cons, hc, h]

theorem utf8Len_append (a b : Str) : utf8Len (a ++ b) = utf8Len a + utf8Len b := by
  simp [utf8Len]

theorem utf8Len_replicate (n : Nat) (c : Char) :
    utf8Len (List.replicate n c) =
      n * (if c.toNat < 0x80 then 1 else if c.toNat < 0x800 then 2
           else if c.toNat < 0x10000 then 3 else 4) := by
  induction n with
  | zero => simp [utf8Len]
  | succ k ih =>
    rw [List.replicate_succ]
    simp only [utf8Len, List.map_cons, List.sum_cons] at ih ⊢
    rw [ih]
    ring

theorem countLinesPy_replicate_other (n : Nat) (c : Char) (h : c ≠ '\n') :
    countLinesPy (List.replicate n c) = 1 := by
  simp [countLinesPy, List.count_replicate, BEq.beq]
  intro he
  exact absurd he h

theorem countLinesPy_replicate_nl (n : Nat) :
    countLinesPy (List.replicate n '\n') = n + 1 := by
  simp [countLinesPy, List.count_replicate]

-- concrete inputs for the C1 and C2 counterexamples

/-- A transcript record holding one `tool_result` block whose content is 110
lines of `aa` (329 bytes, 110 lines): under both thresholds by bytes but over
by lines, and large enough that line-trimming shrinks the record. -/
def c1cexMsg : JObj :=
  .cons (strLit "type") (J.str (strLit "user"))
    (.cons (strLit "message")
      (J.obj (.cons (strLit "role") (J.str (strLit "user"))
        (.cons (strLit "content")
          (J.arr (.cons (J.obj (.cons (strLit "type") (J.str (strLit "tool_result"))
            (.cons (strLit "content")
              (J.str (joinNl (List.replicate 110 (strLit "aa")))) .nil))) .nil)) .nil)))
      .nil)

/-- The content of the single block of `c2cexMsg`: 120 lines of `bb`
(359 bytes ≤ 8192, 120 lines > 100). -/
def c2cexContent : Str := joinNl (List.replicate 120 (strLit "bb"))

/-- A transcript record holding one `tool_result` block whose content is
`c2cexContent`. -/
def c2cexMsg : JObj :=
  .cons (strLit "type") (J.str (strLit "user"))
    (.cons (strLit "message")
      (J.obj (.cons (strLit "role") (J.str (strLit "user"))
        (.cons (strLit "content")
          (J.arr (.cons (J.obj (.cons (strLit "type") (J.str (strLit "tool_result"))
            (.cons (strLit "content") (J.str c2cexContent) .nil))) .nil)) .nil)))
      .nil)

/-- A bare `tool_result` content block with the given string content (used to
instantiate the C2 theorem). -/
def mkToolResultBlock (s : Str) : J :=
  J.obj (.cons (strLit "type") (J.str (strLit "tool_result"))
    (.cons (strLit "content") (J.str s) .nil))

/-- C1 (amended): progress-collapse, thinking-strip and metadata-strip are
idempotent — re-applied to their own output they return it unchanged and
report zero bytes saved.  (tool-output-trim is not idempotent, see the
counterexample.) -/
theorem c1_single_strategy_idempotence : ∀ msgs : List JObj,
    collapse_progress (collapse_progress msgs).1 = ((collapse_progress msgs).1, 0) ∧
    strip_thinking (strip_thinking msgs).1 = ((strip_thinking msgs).1, 0) ∧
    strip_metadata (strip_metadata msgs).1 = ((strip_metadata msgs).1, 0) :=
  fun msgs => ⟨collapse_progress_fixed _ (collapse_progress_chain msgs),
    strip_thinking_idem msgs, strip_metadata_idem msgs⟩

set_option maxHeartbeats 1000000 in
/-- C1 counterexample: tool-output-trim applied a second time to its own
output changes the records again and reports nonzero savings — the inserted
trim marker raises the line count past the threshold, so the second pass
re-trims with a different elision count. -/
theorem c1_trim_second_pass_changes :
    trim_tool_output ((trim_tool_output [c1cexMsg]).1) ≠ ((trim_tool_output [c1cexMsg]).1, 0) := by
  decide

/-- C2 (amended): a `tool_result` block with string content is left untouched
when the content is within both the byte threshold (8192) and the line
threshold (100); it is trimmed as soon as EITHER threshold is exceeded (the
claim's "both" fails, see the counterexample): by bytes when the byte
threshold is exceeded with at most 100 lines, and by lines when the line
count exceeds 100. -/
theorem c2_tool_output_trim_thresholds (block : J) (s : Str)
    (hty : block.get? (strLit "type") = some (J.str (strLit "tool_result")))
    (hct : block.getD (strLit "content") (J.str []) = J.str s) :
    (utf8Len s ≤ TOOL_OUTPUT_MAX_BYTES ∧ countLinesPy s ≤ TOOL_OUTPUT_MAX_LINES →
      trim_block block = (block, false)) ∧
    (TOOL_OUTPUT_MAX_BYTES < utf8Len s → countLinesPy s ≤ TOOL_OUTPUT_MAX_LINES →
      trim_block block =
        (block.setKey (strLit "content") (J.str (byteTrimmed s)), true)) ∧
    (TOOL_OUTPUT_MAX_LINES < countLinesPy s →
      trim_block block =
        (block.setKey (strLit "content") (J.str (lineTrimmed s)), true)) := by
  have hlines : (splitNl s).length = countLinesPy s := by
    rw [splitNl_length]; rfl
  refine ⟨?_, ?_, ?_⟩
  · intro h
    simp [trim_block, hty, hct, h]
  · intro hb hl
    have hcond : ¬ (utf8Len s ≤ TOOL_OUTPUT_MAX_BYTES ∧ countLinesPy s ≤ TOOL_OUTPUT_MAX_LINES) :=
      fun hc => absurd hc.1 (by omega)
    have hlen : ¬ ((splitNl s).length > TOOL_OUTPUT_MAX_LINES) := by omega
    simp [trim_block, hty, hct, hcond, hlen]
  · intro hl
    have hcond : ¬ (utf8Len s ≤ TOOL_OUTPUT_MAX_BYTES ∧ countLinesPy s ≤ TOOL_OUTPUT_MAX_LINES) :=
      fun hc => absurd hc.2 (by omega)
    have hlen : (splitNl s).length > TOOL_OUTPUT_MAX_LINES := by omega
    simp [trim_block, hty, hct, hcond, hlen]

/-- Witness for C2 at the boundary inputs: a block of exactly 8192 bytes and
100 lines is untouched, a block of 8193 bytes with one line is trimmed by
bytes, a block of 151 short lines is trimmed by lines. -/
theorem c2_tool_output_trim_thresholds_witness :
    trim_block (mkToolResultBlock (List.replicate 99 '\n' ++ List.replicate 8093 'a')) =
      (mkToolResultBlock (List.replicate 99 '\n' ++ List.replicate 8093 'a'), false) ∧
    trim_block (mkToolResultBlock (List.replicate 8193 'a')) =
      ((mkToolResultBlock (List.replicate 8193 'a')).setKey (strLit "content")
        (J.str (byteTrimmed (List.replicate 8193 'a'))), true) ∧
    trim_block (mkToolResultBlock (List.replicate 150 '\n')) =
      ((mkToolResultBlock (List.replicate 150 '\n')).setKey (strLit "content")
        (J.str (lineTrimmed (List.replicate 150 '\n'))), true) := by
  have hA := c2_tool_output_trim_thresholds
    (mkToolResultBlock (List.replicate 99 '\n' ++ List.replicate 8093 'a'))
    (List.replicate 99 '\n' ++ List.replicate 8093 'a') rfl rfl
  have hB := c2_tool_output_trim_thresholds
    (mkToolResultBlock (List.replicate 8193 'a')) (List.replicate 8193 'a') rfl rfl
  have hC := c2_tool_output_trim_thresholds
    (mkToolResultBlock (List.replicate 150 '\n')) (List.replicate 150 '\n') rfl rfl
  refine ⟨hA.1 ⟨?_, ?_⟩, hB.2.1 ?_ ?_, hC.2.2 ?_⟩
  · rw [utf8Len_append, utf8Len_replicate, utf8Len_replicate]
    decide
  · unfold countLinesPy
    rw [List.count_append, List.count_replicate, List.count_replicate]
    decide
  · rw [utf8Len_replicate]
    decide
  · rw [countLinesPy_replicate_other 8193 'a' (by decide)]
    decide
  · rw [countLinesPy_replicate_nl]
    decide

set_option maxHeartbeats 1000000 in
/-- C2 counterexample: a `tool_result` block whose content is within the byte
threshold (359 bytes ≤ 8192) but over the line threshold is nevertheless
trimmed — refuting "trims only when the content exceeds BOTH thresholds". -/
theorem c2_trim_below_byte_threshold :
    utf8Len c2cexContent ≤ TOOL_OUTPUT_MAX_BYTES ∧
    (trim_tool_output [c2cexMsg]).1 ≠ [c2cexMsg] := by
  exact ⟨by decide, by decide⟩

/-- C10: each of the four stripping strategies reports exactly the
difference between the total serialized size of its input and that of its
output as its bytes-saved value, and never increases the total size. -/
theorem c10_strategy_bytes_saved_exact : ∀ msgs : List JObj,
    (totalBytes (collapse_progress msgs).1 + (collapse_progress msgs).2 = totalBytes msgs ∧
      totalBytes (collapse_progress msgs).1 ≤ totalBytes msgs) ∧
    (totalBytes (strip_thinking msgs).1 + (strip_thinking msgs).2 = totalBytes msgs ∧
      totalBytes (strip_thinking msgs).1 ≤ totalBytes msgs) ∧
    (totalBytes (strip_metadata msgs).1 + (strip_metadata msgs).2 = totalBytes msgs ∧
      totalBytes (strip_metadata msgs).1 ≤ totalBytes msgs) ∧
    (totalBytes (trim_tool_output msgs).1 + (trim_tool_output msgs).2 = totalBytes msgs ∧
      totalBytes (trim_tool_output msgs).1 ≤ totalBytes msgs) := by
  intro msgs
  have h1 := collapse_progress_bytes msgs
  have h2 := strip_thinking_bytes msgs
  have h3 := strip_metadata_bytes msgs
  have h4 := trim_tool_output_bytes msgs
  exact ⟨⟨h1, by omega⟩, ⟨h2, by omega⟩, ⟨h3, by omega⟩, ⟨h4, by omega⟩⟩

/-! ### `session.py`: graph building, main-chain walk, exchanges, tail BFS -/

/-- The whitespace characters `str.strip()` removes (the ASCII ones; exotic
Unicode whitespace does not occur in the transcripts this program handles). -/
def isPySpace (c : Char) : Bool :=
  c = ' ' || c = '\t' || c = '\n' || c = '\r' || c = '\x0b' || c = '\x0c'

/-- `s.strip()`. -/
def pyStrip (s : Str) : Str :=
  ((s.dropWhile isPySpace).reverse.dropWhile isPySpace).reverse

/-- The `Exchange` dataclass (session.py lines 16-23).  The `uuid`, `role`,
`timestamp` and `line_index` fields hold whatever JSON value the record
carried (Python does not enforce the `str`/`int` annotations). -/
structure Exchange where
  uuid : J
  role : J
  text : Str
  timestamp : J
  line_index : J
  deriving DecidableEq

instance : Inhabited Exchange := ⟨⟨J.null, J.null, [], J.null, J.null⟩⟩

/-- `build_uuid_map(messages).get(u)` (session.py lines 209-211): the dict
comprehension keys every record having a `uuid` key by its value, later
records overwriting earlier ones, so a lookup returns the last such record. -/
def uuidLookup (messages : List JObj) (u : J) : Option JObj :=
  messages.reverse.find? (fun m => m.get? (strLit "uuid") == some u)

/-- `build_children_map(messages).get(p, [])` (session.py lines 214-222):
the children recorded under `p`, in message order (insertion order of the
`defaultdict`), one entry per record whose `parentUuid` and `uuid` are both
truthy. -/
def childrenOf (messages : List JObj) (p : J) : List J :=
  messages.filterMap (fun m =>
    match m.get? (strLit "parentUuid"), m.get? (strLit "uuid") with
    | some pv, some uv => if pyTruthy pv ∧ pyTruthy uv ∧ pv = p then some uv else none
    | _, _ => none)

/-- The filter of `find_last_main_chain_message`: not a sidechain, has a
truthy `uuid`, and of type `user` or `assistant`. -/
def isMainChainMsg (m : JObj) : Bool :=
  !(pyTruthy (m.getD (strLit "isSidechain") (J.bool false))) &&
  pyTruthyOpt (m.get? (strLit "uuid")) &&
  (m.get? (strLit "type") == some (J.str (strLit "user")) ||
   m.get? (strLit "type") == some (J.str (strLit "assistant")))

/-- `find_last_main_chain_message(messages)` (session.py lines 225-231):
scan backward for the last main-chain record. -/
def find_last_main_chain_message (messages : List JObj) : Option JObj :=
  messages.reverse.find? isMainChainMsg

/-- The while loop of `walk_main_chain` (session.py lines 245-258).  The
Python loop appends to `chain` and reverses at the end; consing onto `acc`
builds that reversed (chronological) list directly.  The fuel only bounds
the iteration count; since every iteration either stops or adds a previously
unseen `uuid` value of the message list to `visited`, `len(messages) + 1`
iterations always suffice (proved as part of claim C7). -/
def walkLoop (messages : List JObj) : Nat → List J → List JObj → JObj → List JObj
  | 0, _, acc, _ => acc
  | fuel + 1, visited, acc, current =>
    let uid := current.getD (strLit "uuid") (J.str [])
    if uid ∈ visited then acc
    else
      match current.get? (strLit "parentUuid") with
      | none => current :: acc
      | some pv =>
        if pyTruthy pv then
          match uuidLookup messages pv with
          | some nxt => walkLoop messages fuel (uid :: visited) (current :: acc) nxt
          | none => current :: acc
        else current :: acc

/-- `walk_main_chain(messages)` (session.py lines 234-260). -/
def walk_main_chain (messages : List JObj) : List JObj :=
  match find_last_main_chain_message messages with
  | none => []
  | some last => walkLoop messages (messages.length + 1) [] [] last

/-- Whether a content-block list contains a `tool_result` block
(`isinstance(b, dict) and b.get("type") == "tool_result"`). -/
def hasToolResult (blocks : List J) : Bool :=
  blocks.any (fun b =>
    match b with
    | J.obj o => o.get? (strLit "type") == some (J.str (strLit "tool_result"))
    | _ => false)

/-- The text of the `text`-type blocks of a content-block list, joined with
newlines (session.py lines 303-308; a non-string `text` value raises in
Python and is modelled as empty). -/
def textBlocksJoin (blocks : List J) : Str :=
  joinNl (blocks.filterMap (fun b =>
    match b with
    | J.obj o =>
      if o.get? (strLit "type") = some (J.str (strLit "text")) then
        some (match o.getD (strLit "text") (J.str []) with
              | J.str t => t
              | _ => [])
      else none
    | _ => none))

/-- `extract_exchanges(messages)` (session.py lines 263-313). -/
def extract_exchanges (messages : List JObj) : List Exchange :=
  (walk_main_chain messages).filterMap (fun msg =>
    if msg.get? (strLit "type") ≠ some (J.str (strLit "user")) ∧
       msg.get? (strLit "type") ≠ some (J.str (strLit "assistant")) then none
    else
      let inner := msg.getD (strLit "message") (J.obj .nil)
      let role := inner.getD (strLit "role") (J.str [])
      let uuid := msg.getD (strLit "uuid") (J.str [])
      let timestamp := msg.getD (strLit "timestamp") (J.str [])
      let line_index := msg.getD (strLit "_line_index") (J.num (-1))
      match inner.get? (strLit "content") with
      | some (J.str s) =>
        if (J.str s) = J.str [] then none
        else
          let text := pyStrip s
          if text.isEmpty then none else some ⟨uuid, role, text, timestamp, line_index⟩
      | some (J.arr blocks) =>
        if blocks = .nil then none
        else if hasToolResult blocks.toList then none
        else
          let text := pyStrip (textBlocksJoin blocks.toList)
          if text.isEmpty then none else some ⟨uuid, role, text, timestamp, line_index⟩
      | _ => none)

/-- The BFS loop of `collect_tail_uuids` (session.py lines 403-409): pop the
queue head, skip it if already collected, otherwise collect it and enqueue
its children.  The fuel only bounds the iteration count; every iteration
pops one queue entry and entries are enqueued at most once per collected
uuid, so `2*len(messages) + 2` always suffices (proved as part of C6). -/
def bfsLoop (messages : List JObj) : Nat → List J → List J → List J
  | 0, tail, _ => tail
  | fuel + 1, tail, queue =>
    match queue with
    | [] => tail
    | uid :: rest =>
      if uid ∈ tail then bfsLoop messages fuel tail rest
      else bfsLoop messages fuel (uid :: tail) (rest ++ childrenOf messages uid)

/-- `collect_tail_uuids(messages, boundary_uuid)` (session.py lines
395-411); the Python `set` is modelled as the list of collected members
(membership is what every caller uses). -/
def collect_tail_uuids (messages : List JObj) (boundary_uuid : J) : List J :=
  bfsLoop messages (2 * messages.length + 2) [] [boundary_uuid]

/-- `get_session_metadata(messages)` (session.py lines 414-426). -/
def get_session_metadata : List JObj → JObj
  | [] => .nil
  | m :: rest =>
    if pyTruthyOpt (m.get? (strLit "sessionId")) then
      .cons (strLit "sessionId") (m.getD (strLit "sessionId") (J.str []))
        (.cons (strLit "cwd") (m.getD (strLit "cwd") (J.str []))
        (.cons (strLit "version") (m.getD (strLit "version") (J.str []))
        (.cons (strLit "gitBranch") (m.getD (strLit "gitBranch") (J.str []))
        (.cons (strLit "slug") (m.getD (strLit "slug") (J.str []))
        (.cons (strLit "userType") (m.getD (strLit "userType") (J.str (strLit "external")))
          .nil)))))
    else get_session_metadata rest

/-! ### `compactor.py`: boundary by count, summary record, compaction -/

/-- The two failure modes of `find_boundary_by_count` (compactor.py raises
`ValueError` with distinct messages; the spec names them `InsufficientHistory`
and `InvalidArgument`). -/
inductive BoundaryError where
  | insufficientHistory
  | invalidArgument
  deriving DecidableEq

/-- `find_boundary_by_count(messages, count)` (compactor.py lines 112-134):
note the source checks `count >= len(user_exchanges)` BEFORE `count <= 0`. -/
def find_boundary_by_count (messages : List JObj) (count : Int) : Except BoundaryError J :=
  let exchanges := extract_exchanges messages
  let user_exchanges := exchanges.filter (fun ex => ex.role == J.str (strLit "user"))
  if count ≥ user_exchanges.length then .error .insufficientHistory
  else if count ≤ 0 then .error .invalidArgument
  else (.ok (user_exchanges.getD (user_exchanges.length - count.toNat) default).uuid)

/-- The failure modes of `compact` (spec: `BoundaryNotFound`, `EmptyTail`). -/
inductive CompactError where
  | boundaryNotFound
  | emptyTail
  deriving DecidableEq

/-- The message-count statistics `compact` returns (the byte figures of the
source are sizes of the on-disk file before and after, i.e. I/O, and are not
modelled). -/
structure CompactStats where
  original_messages : Nat
  final_messages : Nat
  removed_messages : Int
  deriving DecidableEq

/-- `build_summary_message(summary_text, metadata)` (compactor.py lines
238-252); the fresh `uuid4()` and the current timestamp are taken as
parameters. -/
def build_summary_message (summary_text : Str) (metadata : JObj)
    (newUuid : Str) (timestamp : Str) : JObj :=
  .cons (strLit "type") (J.str (strLit "summary"))
  (.cons (strLit "uuid") (J.str newUuid)
  (.cons (strLit "parentUuid") J.null
  (.cons (strLit "timestamp") (J.str timestamp)
  (.cons (strLit "sessionId") (metadata.getD (strLit "sessionId") (J.str []))
  (.cons (strLit "isSidechain") (J.bool false)
  (.cons (strLit "userType") (metadata.getD (strLit "userType") (J.str (strLit "external")))
  (.cons (strLit "cwd") (metadata.getD (strLit "cwd") (J.str []))
  (.cons (strLit "version") (metadata.getD (strLit "version") (J.str []))
  (.cons (strLit "gitBranch") (metadata.getD (strLit "gitBranch") (J.str []))
  (.cons (strLit "summary") (J.str summary_text) .nil))))))))))

/-- The reparenting loop of `compact` (compactor.py lines 356-359): only the
FIRST record whose `uuid` equals the boundary gets its `parentUuid` pointed
at the summary. -/
def reparentFirst (summaryUuid : Str) (boundary : J) : List JObj → List JObj
  | [] => []
  | m :: rest =>
    if m.get? (strLit "uuid") = some boundary then
      m.set (strLit "parentUuid") (J.str summaryUuid) :: rest
    else m :: reparentFirst summaryUuid boundary rest

/-- `STRUCTURAL_TYPES` (compactor.py line 362). -/
def STRUCTURAL_TYPES : List J :=
  [J.str (strLit "file-history-snapshot"), J.str (strLit "queue-operation"),
   J.str (strLit "summary")]

/-- The if/elif chain of the rebuild loop of `compact` (compactor.py lines
366-379): keep a record when its truthy `uuid` is in the tail, or it is a
structural record without a `uuid`, or it is a `file-history-snapshot` whose
`messageId` is in the tail. -/
def keepRecord (tail_uuids : List J) (m : JObj) : Bool :=
  let uid := m.get? (strLit "uuid")
  let msg_type := m.getD (strLit "type") (J.str [])
  if pyTruthyOpt uid && decide ((uid.getD J.null) ∈ tail_uuids) then true
  else if decide (msg_type ∈ STRUCTURAL_TYPES) && !pyTruthyOpt uid then true
  else if msg_type = J.str (strLit "file-history-snapshot") then
    decide ((m.getD (strLit "messageId") (J.str [])) ∈ tail_uuids)
  else false

/-- The pure core of `compact(session_path, boundary_uuid, summary_text)`
(compactor.py lines 330-393): validation, tail collection, summary building,
reparenting, splicing and the message-count statistics.  File I/O (backup,
reload, byte sizes) and the optional cozempic strip pre-step are outside the
model; the fresh summary uuid and timestamp are parameters. -/
def compact (messages : List JObj) (boundary_uuid : J) (summary_text : Str)
    (newUuid : Str) (timestamp : Str) :
    Except CompactError (List JObj × CompactStats) :=
  let all_uuids := (messages.filterMap (fun m => m.get? (strLit "uuid"))).filter pyTruthy
  if boundary_uuid ∉ all_uuids then .error .boundaryNotFound
  else
    let tail_uuids := collect_tail_uuids messages boundary_uuid
    if tail_uuids.length = 0 then .error .emptyTail
    else
      let metadata := get_session_metadata messages
      let summary_msg := build_summary_message summary_text metadata newUuid timestamp
      let messages2 := reparentFirst newUuid boundary_uuid messages
      let new_messages := summary_msg :: messages2.filter (keepRecord tail_uuids)
      .ok (new_messages,
        { original_messages := messages.length,
          final_messages := new_messages.length,
          removed_messages := (messages.length : Int) - new_messages.length + 1 })

/-! ### Boundary by count (claim C3) -/

/-- C3 (amended): `find_boundary_by_count` fails with `InsufficientHistory`
for every `n` at least the number of user exchanges — this check runs FIRST —
then fails with `InvalidArgument` for every remaining `n ≤ 0`, and otherwise
returns the uuid of the user exchange at chronological index
`length − n`. -/
theorem c3_boundary_by_count (messages : List JObj) (n : Int) :
    ((n ≥ ((extract_exchanges messages).filter
        (fun ex => ex.role == J.str (strLit "user"))).length →
      find_boundary_by_count messages n = .error .insufficientHistory) ∧
     (n < ((extract_exchanges messages).filter
        (fun ex => ex.role == J.str (strLit "user"))).length → n ≤ 0 →
      find_boundary_by_count messages n = .error .invalidArgument) ∧
     (0 < n → n < ((extract_exchanges messages).filter
        (fun ex => ex.role == J.str (strLit "user"))).length →
      find_boundary_by_count messages n =
        .ok ((((extract_exchanges messages).filter
            (fun ex => ex.role == J.str (strLit "user"))).getD
          (((extract_exchanges messages).filter
            (fun ex => ex.role == J.str (strLit "user"))).length - n.toNat)
          default).uuid))) := by
  refine ⟨?_, ?_, ?_⟩
  · intro h
    simp only [find_boundary_by_count]
    rw [if_pos h]
  · intro h1 h2
    simp only [find_boundary_by_count]
    rw [if_neg (by omega), if_pos h2]
  · intro h1 h2
    simp only [find_boundary_by_count]
    rw [if_neg (by omega), if_neg (by omega)]

instance {e a : Type} [DecidableEq e] [DecidableEq a] : DecidableEq (Except e a) := fun x y =>
  match x, y with
  | .error e1, .error e2 =>
    if h : e1 = e2 then isTrue (by rw [h]) else isFalse (fun hc => by cases hc; exact h rfl)
  | .ok v1, .ok v2 =>
    if h : v1 = v2 then isTrue (by rw [h]) else isFalse (fun hc => by cases hc; exact h rfl)
  | .error _, .ok _ => isFalse (fun hc => by cases hc)
  | .ok _, .error _ => isFalse (fun hc => by cases hc)

/-- A one-turn user record for the C3 witness session. -/
def c3wMsg (uuidS : String) (parentV : J) : JObj :=
  .cons (strLit "uuid") (J.str (strLit uuidS))
    (.cons (strLit "parentUuid") parentV
    (.cons (strLit "type") (J.str (strLit "user"))
    (.cons (strLit "message")
      (J.obj (.cons (strLit "role") (J.str (strLit "user"))
        (.cons (strLit "content") (J.str (strLit "hi")) .nil))) .nil)))

/-- A five-user-turn session (a chain u1 → … → u5 of user prompts). -/
def c3wSession : List JObj :=
  [c3wMsg "u1" J.null,
   c3wMsg "u2" (J.str (strLit "u1")),
   c3wMsg "u3" (J.str (strLit "u2")),
   c3wMsg "u4" (J.str (strLit "u3")),
   c3wMsg "u5" (J.str (strLit "u4"))]

/-- Witness for C3: `n = 1` on a session with 5 user turns returns the uuid
of the last user exchange. -/
theorem c3_boundary_by_count_witness :
    find_boundary_by_count c3wSession 1 = .ok (J.str (strLit "u5")) := by
  have h := (c3_boundary_by_count c3wSession 1).2.2 (by decide) (by decide)
  exact h.trans (by decide)

/-- C3 counterexample: on a session with zero user exchanges, `n = 0`
(which is `≤ 0`) fails with `InsufficientHistory`, not `InvalidArgument` —
the `n ≥ total` check runs first in the source. -/
theorem c3_zero_turns_counterexample :
    find_boundary_by_count [] 0 = Except.error BoundaryError.insufficientHistory ∧
    find_boundary_by_count [] 0 ≠ Except.error BoundaryError.invalidArgument := by
  exact ⟨by decide, by decide⟩

/-! ### Tail collection is exactly reachability (claim C6) -/

/-- One entry per record that contributes an edge to the children map: its
(truthy) `parentUuid` value. -/
def parentEntries (messages : List JObj) : List J :=
  messages.filterMap (fun m =>
    match m.get? (strLit "parentUuid"), m.get? (strLit "uuid") with
    | some pv, some uv => if pyTruthy pv ∧ pyTruthy uv then some pv else none
    | _, _ => none)

/-- Termination potential of the BFS loop: every iteration strictly
decreases it. -/
def bfsPotential (messages : List JObj) (tail queue : List J) : Nat :=
  queue.length + 2 * ((parentEntries messages).filter (fun p => p ∉ tail)).length

theorem childrenOf_length (messages : List JObj) (p : J) :
    (childrenOf messages p).length = (parentEntries messages).count p := by
  induction messages with
  | nil => rfl
  | cons m rest ih =>
    simp only [childrenOf, parentEntries, List.filterMap_cons] at *
    rcases hpv : m.get? (strLit "parentUuid") with _ | pv
    · simpa [hpv] using ih
    · rcases huv : m.get? (strLit "uuid") with _ | uv
      · simpa [hpv, huv] using ih
      · simp only [hpv, huv]
        by_cases ht : pyTruthy pv ∧ pyTruthy uv
        · by_cases hp : pv = p
          · subst hp
            rw [if_pos ⟨ht.1, ht.2, rfl⟩, if_pos ht]
            simp [List.count_cons, ih]
          · rw [if_neg (fun hc => hp hc.2.2), if_pos ht]
            simp only [List.count_cons, ih]
            have hbe : (pv == p) = false := by simp [hp]
            simp [hbe]
        · rw [if_neg (fun hc => ht ⟨hc.1, hc.2.1⟩), if_neg ht]
          exact ih

theorem filter_notin_cons_length (l : List J) (tail : List J) (uid : J) (h : uid ∉ tail) :
    (l.filter (fun p => p ∉ tail)).length =
      (l.filter (fun p => p ∉ uid :: tail)).length + l.count uid := by
  induction l with
  | nil => simp
  | cons a rest ih =>
    rw [List.filter_cons, List.filter_cons, List.count_cons]
    by_cases ha : a = uid
    · subst ha
      rw [if_pos (by simpa using h), if_neg (by simp)]
      have hbe : (a == a) = true := by simp
      simp only [List.length_cons, hbe, if_true]
      omega
    · have hbe : (a == uid) = false := by simp [ha]
      by_cases hm : a ∈ tail
      · rw [if_neg (by simpa using hm), if_neg (by simp [hm])]
        simp only [hbe, Bool.false_eq_true, if_false]
        omega
      · rw [if_pos (by simpa using hm), if_pos (by simp [ha, hm])]
        simp only [hbe, Bool.false_eq_true, if_false, List.length_cons]
        omega

theorem bfsPotential_step_skip (messages : List JObj) (tail : List J) (uid : J)
    (rest : List J) :
    bfsPotential messages tail rest < bfsPotential messages tail (uid :: rest) := by
  simp [bfsPotential]

theorem bfsPotential_step_add (messages : List JObj) (tail : List J) (uid : J)
    (rest : List J) (h : uid ∉ tail) :
    bfsPotential messages (uid :: tail) (rest ++ childrenOf messages uid) <
      bfsPotential messages tail (uid :: rest) := by
  simp only [bfsPotential, List.length_append, List.length_cons]
  have hc := childrenOf_length messages uid
  have hf := filter_notin_cons_length (parentEntries messages) tail uid h
  omega

theorem bfsLoop_spec (messages : List JObj) : ∀ (fuel : Nat) (tail queue : List J),
    bfsPotential messages tail queue < fuel →
    (∀ u ∈ tail, ∀ c ∈ childrenOf messages u, c ∈ tail ∨ c ∈ queue) →
    (∀ u ∈ tail, u ∈ bfsLoop messages fuel tail queue) ∧
    (∀ u ∈ queue, u ∈ bfsLoop messages fuel tail queue) ∧
    (∀ u ∈ bfsLoop messages fuel tail queue,
       u ∈ tail ∨ ∃ q ∈ queue,
         Relation.ReflTransGen (fun p c => c ∈ childrenOf messages p) q u) ∧
    (∀ u ∈ bfsLoop messages fuel tail queue, ∀ c ∈ childrenOf messages u,
       c ∈ bfsLoop messages fuel tail queue) := by
  intro fuel
  induction fuel with
  | zero =>
    intro tail queue hfuel hclosed
    exact absurd hfuel (by omega)
  | succ f ih =>
    intro tail queue hfuel hclosed
    match queue with
    | [] =>
      refine ⟨fun u hu => hu, fun u hu => absurd hu (List.not_mem_nil u), ?_, ?_⟩
      · exact fun u hu => Or.inl hu
      · intro u hu c hc
        rcases hclosed u hu c hc with h | h
        · exact h
        · exact absurd h (List.not_mem_nil c)
    | uid :: rest =>
      by_cases hmem : uid ∈ tail
      · -- skip branch
        have hres : bfsLoop messages (f + 1) tail (uid :: rest) = bfsLoop messages f tail rest := by
          simp [bfsLoop, hmem]
        have hfuel2 : bfsPotential messages tail rest < f := by
          have := bfsPotential_step_skip messages tail uid rest
          omega
        have hclosed2 : ∀ u ∈ tail, ∀ c ∈ childrenOf messages u, c ∈ tail ∨ c ∈ rest := by
          intro u hu c hc
          rcases hclosed u hu c hc with h | h
          · exact Or.inl h
          · rcases List.mem_cons.mp h with he | hr
            · exact Or.inl (he ▸ hmem)
            · exact Or.inr hr
        obtain ⟨s1, s2, s3, s4⟩ := ih tail rest hfuel2 hclosed2
        rw [hres]
        refine ⟨s1, ?_, ?_, s4⟩
        · intro u hu
          rcases List.mem_cons.mp hu with he | hr
          · exact he ▸ s1 uid hmem
          · exact s2 u hr
        · intro u hu
          rcases s3 u hu with h | ⟨q, hq, hrt⟩
          · exact Or.inl h
          · exact Or.inr ⟨q, List.mem_cons_of_mem _ hq, hrt⟩
      · -- collect branch
        have hres : bfsLoop messages (f + 1) tail (uid :: rest) =
            bfsLoop messages f (uid :: tail) (rest ++ childrenOf messages uid) := by
          simp [bfsLoop, hmem]
        have hfuel2 : bfsPotential messages (uid :: tail) (rest ++ childrenOf messages uid) < f := by
          have := bfsPotential_step_add messages tail uid rest hmem
          omega
        have hclosed2 : ∀ u ∈ uid :: tail, ∀ c ∈ childrenOf messages u,
            c ∈ uid :: tail ∨ c ∈ rest ++ childrenOf messages uid := by
          intro u hu c hc
          rcases List.mem_cons.mp hu with he | ht
          · subst he
            exact Or.inr (List.mem_append_right _ hc)
          · rcases hclosed u ht c hc with h | h
            · exact Or.inl (List.mem_cons_of_mem _ h)
            · rcases List.mem_cons.mp h with he | hr
              · exact Or.inl (he ▸ List.mem_cons_self _ _)
              · exact Or.inr (List.mem_append_left _ hr)
        obtain ⟨s1, s2, s3, s4⟩ := ih (uid :: tail) (rest ++ childrenOf messages uid) hfuel2 hclosed2
        rw [hres]
        refine ⟨?_, ?_, ?_, s4⟩
        · exact fun u hu => s1 u (List.mem_cons_of_mem _ hu)
        · intro u hu
          rcases List.mem_cons.mp hu with he | hr
          · exact he ▸ s1 uid (List.mem_cons_self _ _)
          · exact s2 u (List.mem_append_left _ hr)
        · intro u hu
          rcases s3 u hu with h | ⟨q, hq, hrt⟩
          · rcases List.mem_cons.mp h with he | ht
            · exact Or.inr ⟨uid, List.mem_cons_self _ _, he ▸ Relation.ReflTransGen.refl⟩
            · exact Or.inl ht
          · rcases List.mem_append.mp hq with hql | hqc
            · exact Or.inr ⟨q, List.mem_cons_of_mem _ hql, hrt⟩
            · exact Or.inr ⟨uid, List.mem_cons_self _ _,
                Relation.ReflTransGen.head hqc hrt⟩

/-- C6: `collect_tail_uuids` returns exactly the boundary and its transitive
descendants in the children map — a uuid is collected if and only if it is
reachable from the boundary along child edges (so the boundary itself is
included, and no ancestor or unrelated sibling, not being reachable, ever
is), and the visited-set guard makes the traversal finish even on cyclic
links (the fuelled loop provably runs to queue exhaustion). -/
theorem c6_collect_tail_uuids (messages : List JObj) (b u : J) :
    u ∈ collect_tail_uuids messages b ↔
      Relation.ReflTransGen (fun p c => c ∈ childrenOf messages p) b u := by
  have hfuel : bfsPotential messages [] [b] < 2 * messages.length + 2 := by
    have hle : (parentEntries messages).length ≤ messages.length :=
      List.length_filterMap_le _ _
    have hfle : ((parentEntries messages).filter (fun p => p ∉ ([] : List J))).length ≤
        (parentEntries messages).length := List.length_filter_le _ _
    simp only [bfsPotential, List.length_cons, List.length_nil]
    omega
  have hclosed : ∀ u ∈ ([] : List J), ∀ c ∈ childrenOf messages u,
      c ∈ ([] : List J) ∨ c ∈ [b] := fun u hu => absurd hu (List.not_mem_nil u)
  obtain ⟨s1, s2, s3, s4⟩ := bfsLoop_spec messages (2 * messages.length + 2) [] [b] hfuel hclosed
  constructor
  · intro hu
    rcases s3 u hu with h | ⟨q, hq, hrt⟩
    · exact absurd h (List.not_mem_nil u)
    · have hqb : q = b := by simpa using hq
      exact hqb ▸ hrt
  · intro hrt
    induction hrt with
    | refl => exact s2 b (List.mem_cons_self _ _)
    | tail hstep hlast ih2 =>
      exact s4 _ ih2 _ hlast

/-! ### The main-chain walk (claim C7) -/

/-- `current.get("uuid", "")` — the value the walk records as visited. -/
def uidOfD (m : JObj) : J := m.getD (strLit "uuid") (J.str [])

theorem uuidLookup_some (messages : List JObj) (p : J) (m : JObj)
    (h : uuidLookup messages p = some m) :
    m ∈ messages ∧ m.get? (strLit "uuid") = some p := by
  unfold uuidLookup at h
  have hm := List.mem_of_find?_eq_some h
  have hp := List.find?_some h
  refine ⟨List.mem_reverse.mp hm, ?_⟩
  simpa using hp

theorem filter_dedup_visited_lt (l : List J) (visited : List J) (uid : J)
    (hl : uid ∈ l) (hv : uid ∉ visited) :
    (l.dedup.filter (fun u => u ∉ uid :: visited)).length <
      (l.dedup.filter (fun u => u ∉ visited)).length := by
  have h := filter_notin_cons_length l.dedup visited uid hv
  rw [List.count_dedup] at h
  simp only [hl, if_pos] at h
  omega

theorem walkLoop_spec (messages : List JObj) : ∀ (fuel : Nat) (visited : List J)
    (acc : List JObj) (current : JObj),
    ((messages.map uidOfD).dedup.filter (fun u => u ∉ visited)).length < fuel →
    current ∈ messages →
    visited = acc.map uidOfD →
    visited.Nodup →
    List.Chain' (fun a b => ∃ p, b.get? (strLit "parentUuid") = some p ∧
      pyTruthy p = true ∧ uuidLookup messages p = some a) (current :: acc) →
    (List.Chain' (fun a b => ∃ p, b.get? (strLit "parentUuid") = some p ∧
       pyTruthy p = true ∧ uuidLookup messages p = some a)
       (walkLoop messages fuel visited acc current)) ∧
    ((walkLoop messages fuel visited acc current).map uidOfD).Nodup ∧
    ((walkLoop messages fuel visited acc current).getLast? = (current :: acc).getLast?) ∧
    (∀ h ∈ (walkLoop messages fuel visited acc current).head?,
       ∀ pv, h.get? (strLit "parentUuid") = some pv → pyTruthy pv = true →
         uuidLookup messages pv = none ∨
         ∃ mx, uuidLookup messages pv = some mx ∧
           uidOfD mx ∈ (walkLoop messages fuel visited acc current).map uidOfD) := by
  intro fuel
  induction fuel with
  | zero =>
    intro visited acc current hfuel
    exact absurd hfuel (by omega)
  | succ f ih =>
    intro visited acc current hfuel hcur hvis hnd hchain
    by_cases hmem : current.getD (strLit "uuid") (J.str []) ∈ visited
    · -- cycle guard fired: the loop breaks before pushing `current`
      have hres : walkLoop messages (f + 1) visited acc current = acc := by
        simp [walkLoop, hmem]
      rw [hres]
      have haccne : acc ≠ [] := by
        intro he
        rw [he] at hvis
        rw [hvis] at hmem
        exact absurd hmem (List.not_mem_nil _)
      rcases acc with _ | ⟨h0, acc'⟩
      · exact absurd rfl haccne
      have hrel := (List.chain'_cons.mp hchain).1
      refine ⟨(List.chain'_cons.mp hchain).2, ?_, ?_, ?_⟩
      · exact hvis ▸ hnd
      · rfl
      · intro h hh pv hpv htr
        have hh0 : h0 = h := by simpa using hh
        subst hh0
        obtain ⟨p, hp, htp, hlkp⟩ := hrel
        have hpe : pv = p := by
          rw [hp] at hpv
          exact (Option.some.inj hpv).symm
        subst hpe
        refine Or.inr ⟨current, hlkp, ?_⟩
        rw [← hvis]
        exact hmem
    · rcases hp : current.get? (strLit "parentUuid") with _ | pv
      · -- no parent: push and stop
        have hres : walkLoop messages (f + 1) visited acc current = current :: acc := by
          simp [walkLoop, hmem, hp]
        rw [hres]
        refine ⟨hchain, ?_, rfl, ?_⟩
        · simp only [List.map_cons]
          rw [← hvis]
          exact List.nodup_cons.mpr ⟨by simpa [uidOfD] using hmem, hnd⟩
        · intro h hh pv hpv
          have hh0 : current = h := by simpa using hh
          subst hh0
          rw [hp] at hpv
          cases hpv
      · by_cases htr : pyTruthy pv = true
        · rcases hlk : uuidLookup messages pv with _ | nxt
          · -- unresolvable parent: push and stop
            have hres : walkLoop messages (f + 1) visited acc current = current :: acc := by
              simp [walkLoop, hmem, hp, htr, hlk]
            rw [hres]
            refine ⟨hchain, ?_, rfl, ?_⟩
            · simp only [List.map_cons]
              rw [← hvis]
              exact List.nodup_cons.mpr ⟨by simpa [uidOfD] using hmem, hnd⟩
            · intro h hh pv2 hpv2 htr2
              have hh0 : current = h := by simpa using hh
              subst hh0
              rw [hp] at hpv2
              have hpe : pv = pv2 := Option.some.inj hpv2
              subst hpe
              exact Or.inl hlk
          · -- follow the parent link
            have hres : walkLoop messages (f + 1) visited acc current =
                walkLoop messages f (current.getD (strLit "uuid") (J.str []) :: visited)
                  (current :: acc) nxt := by
              simp [walkLoop, hmem, hp, htr, hlk]
            have hfuel2 : ((messages.map uidOfD).dedup.filter
                (fun u => u ∉ current.getD (strLit "uuid") (J.str []) :: visited)).length < f := by
              have hlt := filter_dedup_visited_lt (messages.map uidOfD) visited
                (current.getD (strLit "uuid") (J.str []))
                (List.mem_map_of_mem uidOfD hcur) hmem
              omega
            obtain ⟨hnm, hnu⟩ := uuidLookup_some messages pv nxt hlk
            have hchain2 : List.Chain' (fun a b => ∃ p, b.get? (strLit "parentUuid") = some p ∧
                pyTruthy p = true ∧ uuidLookup messages p = some a)
                (nxt :: current :: acc) :=
              List.chain'_cons.mpr ⟨⟨pv, hp, htr, hlk⟩, hchain⟩
            have hvis2 : current.getD (strLit "uuid") (J.str []) :: visited =
                (current :: acc).map uidOfD := by
              simp only [List.map_cons, uidOfD]
              rw [hvis]
            have hnd2 : (current.getD (strLit "uuid") (J.str []) :: visited).Nodup :=
              List.nodup_cons.mpr ⟨hmem, hnd⟩
            obtain ⟨s1, s2, s3, s4⟩ := ih _ _ nxt hfuel2 hnm hvis2 hnd2 hchain2
            rw [hres]
            refine ⟨s1, s2, ?_, s4⟩
            rw [s3]
            rfl
        · -- falsy parent value: push and stop
          have hres : walkLoop messages (f + 1) visited acc current = current :: acc := by
            simp [walkLoop, hmem, hp, htr]
          rw [hres]
          refine ⟨hchain, ?_, rfl, ?_⟩
          · simp only [List.map_cons]
            rw [← hvis]
            exact List.nodup_cons.mpr ⟨by simpa [uidOfD] using hmem, hnd⟩
          · intro h hh pv2 hpv2 htr2
            have hh0 : current = h := by simpa using hh
            subst hh0
            rw [hp] at hpv2
            have hpe : pv = pv2 := Option.some.inj hpv2
            subst hpe
            exact absurd htr2 htr

/-- C7: for every record sequence, even one whose parent links form a cycle,
the main-chain walk returns a chronological sequence in which each record's
uuid is the `parentUuid` of the record that follows it, with no repeated
uuid; it ends at the last non-sidechain user/assistant record (and is empty
when none exists), and its first record's parent is either absent/falsy,
unresolvable, or already on the chain (the cycle guard fired). -/
theorem c7_walk_main_chain (messages : List JObj) :
    List.Chain' (fun a b => ∃ p, b.get? (strLit "parentUuid") = some p ∧
      pyTruthy p = true ∧ a.get? (strLit "uuid") = some p) (walk_main_chain messages) ∧
    ((walk_main_chain messages).map uidOfD).Nodup ∧
    (∀ last, find_last_main_chain_message messages = some last →
      (walk_main_chain messages).getLast? = some last) ∧
    (find_last_main_chain_message messages = none → walk_main_chain messages = []) ∧
    (∀ h ∈ (walk_main_chain messages).head?, ∀ pv,
      h.get? (strLit "parentUuid") = some pv → pyTruthy pv = true →
      uuidLookup messages pv = none ∨
      ∃ mx, uuidLookup messages pv = some mx ∧
        uidOfD mx ∈ (walk_main_chain messages).map uidOfD) := by
  rcases hlast : find_last_main_chain_message messages with _ | last
  · have hw : walk_main_chain messages = [] := by
      simp [walk_main_chain, hlast]
    rw [hw]
    refine ⟨by simp, by simp, ?_, fun _ => rfl, by simp⟩
    intro l hl
    first
    | exact Option.noConfusion hl
    | (rw [hlast] at hl; exact Option.noConfusion hl)
  · have hw : walk_main_chain messages =
        walkLoop messages (messages.length + 1) [] [] last := by
      simp [walk_main_chain, hlast]
    have hmem : last ∈ messages := by
      unfold find_last_main_chain_message at hlast
      exact List.mem_reverse.mp (List.mem_of_find?_eq_some hlast)
    have hfuel : ((messages.map uidOfD).dedup.filter
        (fun u => u ∉ ([] : List J))).length < messages.length + 1 := by
      have h1 : ((messages.map uidOfD).dedup.filter
          (fun u => u ∉ ([] : List J))).length ≤ (messages.map uidOfD).dedup.length :=
        List.length_filter_le _ _
      have h2 : (messages.map uidOfD).dedup.length ≤ (messages.map uidOfD).length :=
        (List.dedup_sublist _).length_le
      have h3 : (messages.map uidOfD).length = messages.length := List.length_map _ _
      omega
    obtain ⟨s1, s2, s3, s4⟩ := walkLoop_spec messages (messages.length + 1) [] [] last
      hfuel hmem rfl List.nodup_nil (List.chain'_singleton last)
    rw [hw]
    refine ⟨?_, s2, ?_, ?_, s4⟩
    · refine List.Chain'.imp ?_ s1
      intro a b hab
      obtain ⟨p, hp, htp, hlkp⟩ := hab
      exact ⟨p, hp, htp, (uuidLookup_some messages p a hlkp).2⟩
    · intro l hl
      have hle : last = l := by
        first
        | exact Option.some.inj hl
        | (rw [hlast] at hl; exact Option.some.inj hl)
      subst hle
      rw [s3]
      rfl
    · intro hc
      first
      | exact Option.noConfusion hc
      | (rw [hlast] at hc; exact Option.noConfusion hc)

/-- The two records of the manufactured cycle `A.parent = B, B.parent = A`. -/
def c7wA : JObj :=
  .cons (strLit "uuid") (J.str (strLit "A"))
    (.cons (strLit "parentUuid") (J.str (strLit "B"))
    (.cons (strLit "type") (J.str (strLit "user")) .nil))

/-- Second record of the cycle. -/
def c7wB : JObj :=
  .cons (strLit "uuid") (J.str (strLit "B"))
    (.cons (strLit "parentUuid") (J.str (strLit "A"))
    (.cons (strLit "type") (J.str (strLit "assistant")) .nil))

/-- Witness for C7 on the manufactured cycle: the walk terminates with the
chain ending at the cycle's last record, and the head's parent resolves to a
record already on the chain (the cycle guard). -/
theorem c7_walk_main_chain_witness :
    (walk_main_chain [c7wA, c7wB]).getLast? = some c7wB ∧
    (uuidLookup [c7wA, c7wB] (J.str (strLit "B")) = none ∨
     ∃ mx, uuidLookup [c7wA, c7wB] (J.str (strLit "B")) = some mx ∧
       uidOfD mx ∈ (walk_main_chain [c7wA, c7wB]).map uidOfD) := by
  have h := c7_walk_main_chain [c7wA, c7wB]
  refine ⟨h.2.2.1 c7wB (by decide), ?_⟩
  exact h.2.2.2.2 c7wA (by decide) (J.str (strLit "B")) (by decide) (by decide)

/-! ### Compaction: conservation, frame and stats (claims C4, C8, C9) -/

/-- A record kept by the rebuild loop's first branch: a truthy `uuid` that is
in the tail set. -/
def keptTail (tail_uuids : List J) (m : JObj) : Bool :=
  pyTruthyOpt (m.get? (strLit "uuid")) &&
    decide ((m.get? (strLit "uuid")).getD J.null ∈ tail_uuids)

/-- A record kept by the rebuild loop's structural branches: a structural
type without a truthy `uuid`, or a `file-history-snapshot` whose `messageId`
is in the tail. -/
def keptStructural (tail_uuids : List J) (m : JObj) : Bool :=
  !keptTail tail_uuids m &&
  ((decide ((m.getD (strLit "type") (J.str [])) ∈ STRUCTURAL_TYPES) &&
      !pyTruthyOpt (m.get? (strLit "uuid"))) ||
   (decide ((m.getD (strLit "type") (J.str [])) = J.str (strLit "file-history-snapshot")) &&
      decide ((m.getD (strLit "messageId") (J.str [])) ∈ tail_uuids)))

theorem keepRecord_eq_or (tail_uuids : List J) (m : JObj) :
    keepRecord tail_uuids m = (keptTail tail_uuids m || keptStructural tail_uuids m) := by
  simp only [keepRecord, keptTail, keptStructural]
  by_cases h4 : (m.getD (strLit "type") (J.str [])) = J.str (strLit "file-history-snapshot") <;>
  by_cases h3 : (m.getD (strLit "type") (J.str [])) ∈ STRUCTURAL_TYPES <;>
  by_cases h5 : (m.getD (strLit "messageId") (J.str [])) ∈ tail_uuids <;>
  by_cases h2 : (m.get? (strLit "uuid")).getD J.null ∈ tail_uuids <;>
  rcases hb1 : pyTruthyOpt (m.get? (strLit "uuid")) with _ | _ <;>
  simp [h4, h3, h5, h2, hb1]

theorem filter_or_disjoint_length (l : List JObj) (p q : JObj → Bool)
    (h : ∀ m, q m = true → p m = false) :
    (l.filter (fun m => p m || q m)).length =
      (l.filter p).length + (l.filter q).length := by
  induction l with
  | nil => simp
  | cons a rest ih =>
    rcases hp : p a with _ | _
    · rcases hq : q a with _ | _
      · simp [List.filter_cons, hp, hq, ih]
      · simp [List.filter_cons, hp, hq, ih]
        omega
    · have hq : q a = false := by
        rcases hq : q a with _ | _
        · rfl
        · rw [h a hq] at hp
          cases hp
      simp [List.filter_cons, hp, hq, ih]
      omega

/-- Root record of the C9 scenario. -/
def c9MsgA : JObj :=
  .cons (strLit "uuid") (J.str (strLit "A"))
    (.cons (strLit "parentUuid") J.null
    (.cons (strLit "type") (J.str (strLit "user")) .nil))

/-- Second record of the C9 scenario. -/
def c9MsgB : JObj :=
  .cons (strLit "uuid") (J.str (strLit "B"))
    (.cons (strLit "parentUuid") (J.str (strLit "A"))
    (.cons (strLit "type") (J.str (strLit "assistant")) .nil))

/-- Third record (the boundary) of the C9 scenario. -/
def c9MsgC : JObj :=
  .cons (strLit "uuid") (J.str (strLit "C"))
    (.cons (strLit "parentUuid") (J.str (strLit "B"))
    (.cons (strLit "type") (J.str (strLit "user")) .nil))

/-- Fourth record of the C9 scenario. -/
def c9MsgD : JObj :=
  .cons (strLit "uuid") (J.str (strLit "D"))
    (.cons (strLit "parentUuid") (J.str (strLit "C"))
    (.cons (strLit "type") (J.str (strLit "assistant")) .nil))

/-- The four-record scenario of claim C9. -/
def c9Session : List JObj := [c9MsgA, c9MsgB, c9MsgC, c9MsgD]

theorem compact_ok (messages : List JObj) (b : J) (text su ts : Str)
    (final : List JObj) (stats : CompactStats)
    (h : compact messages b text su ts = .ok (final, stats)) :
    final = build_summary_message text (get_session_metadata messages) su ts ::
      (reparentFirst su b messages).filter (keepRecord (collect_tail_uuids messages b)) ∧
    stats = { original_messages := messages.length,
              final_messages := final.length,
              removed_messages := (messages.length : Int) - final.length + 1 } := by
  simp only [compact] at h
  split_ifs at h with h1 h2
  all_goals
    first
    | exact Except.noConfusion h
    | (have hpair := Except.ok.inj h; cases hpair; exact ⟨rfl, rfl⟩)

/-- C9: the stats of every successful compaction satisfy
`removedMessages = originalMessages − finalMessages + 1`, and on the concrete
four-record scenario `[A(user), B(parent=A), C(parent=B), D(parent=C)]` with
boundary `C` the result is `[summary(parent=null), C(parent=summary.uuid),
D(parent=C)]` with stats (4, 3, 2). -/
theorem c9_compact_stats :
    (∀ (messages : List JObj) (b : J) (text su ts : Str)
       (final : List JObj) (stats : CompactStats),
       compact messages b text su ts = .ok (final, stats) →
       stats.removed_messages =
         (stats.original_messages : Int) - stats.final_messages + 1) ∧
    compact c9Session (J.str (strLit "C")) (strLit "sum") (strLit "su") (strLit "ts") =
      .ok ([build_summary_message (strLit "sum") JObj.nil (strLit "su") (strLit "ts"),
            c9MsgC.set (strLit "parentUuid") (J.str (strLit "su")), c9MsgD],
           ⟨4, 3, 2⟩) := by
  constructor
  · intro messages b text su ts final stats h
    obtain ⟨hf, hs⟩ := compact_ok messages b text su ts final stats h
    rw [hs]
  · decide

/-- Witness for C9 applying the stats law at the concrete scenario. -/
theorem c9_compact_stats_witness :
    (⟨4, 3, 2⟩ : CompactStats).removed_messages =
      ((⟨4, 3, 2⟩ : CompactStats).original_messages : Int) -
        (⟨4, 3, 2⟩ : CompactStats).final_messages + 1 :=
  c9_compact_stats.1 c9Session (J.str (strLit "C")) (strLit "sum") (strLit "su")
    (strLit "ts") _ _ c9_compact_stats.2

theorem build_summary_get_uuid (text : Str) (md : JObj) (su ts : Str) :
    (build_summary_message text md su ts).get? (strLit "uuid") = some (J.str su) := rfl

/-- C4 (amended): a successful compaction produces
`finalMessages = 1 (summary) + |kept tail-uuid records| + |kept structural
records|`, and every truthy uuid in the final sequence is the summary's, a
member of tailUuids, or the own uuid of a retained `file-history-snapshot`
whose `messageId` is in tailUuids (the last case refutes the claim's
two-way disjunction, see the counterexample). -/
theorem c4_compact_conservation (messages : List JObj) (b : J) (text su ts : Str)
    (final : List JObj) (stats : CompactStats)
    (h : compact messages b text su ts = .ok (final, stats)) :
    final.length = 1 +
      ((reparentFirst su b messages).filter (keptTail (collect_tail_uuids messages b))).length +
      ((reparentFirst su b messages).filter (keptStructural (collect_tail_uuids messages b))).length ∧
    ∀ m ∈ final, pyTruthyOpt (m.get? (strLit "uuid")) = true →
      (m.get? (strLit "uuid")).getD J.null ∈ collect_tail_uuids messages b ∨
      (m.get? (strLit "uuid")).getD J.null = J.str su ∨
      (m.getD (strLit "type") (J.str []) = J.str (strLit "file-history-snapshot") ∧
       (m.getD (strLit "messageId") (J.str [])) ∈ collect_tail_uuids messages b) := by
  obtain ⟨hf, _⟩ := compact_ok messages b text su ts final stats h
  subst hf
  constructor
  · simp only [List.length_cons]
    have heq : (reparentFirst su b messages).filter
          (keepRecord (collect_tail_uuids messages b)) =
        (reparentFirst su b messages).filter
          (fun m => keptTail (collect_tail_uuids messages b) m ||
            keptStructural (collect_tail_uuids messages b) m) := by
      apply List.filter_congr
      intro m _
      exact keepRecord_eq_or _ m
    rw [heq, filter_or_disjoint_length]
    · omega
    · intro m hq
      simp only [keptStructural, Bool.and_eq_true, Bool.not_eq_true'] at hq
      exact hq.1
  · intro m hm htr
    rcases List.mem_cons.mp hm with he | hfl
    · subst he
      rw [build_summary_get_uuid]
      exact Or.inr (Or.inl rfl)
    · have hk := List.of_mem_filter hfl
      rw [keepRecord_eq_or] at hk
      rcases (by simpa using hk : keptTail (collect_tail_uuids messages b) m = true ∨
        keptStructural (collect_tail_uuids messages b) m = true) with h1 | h2
      · simp only [keptTail, Bool.and_eq_true, decide_eq_true_eq] at h1
        exact Or.inl h1.2
      · simp only [keptStructural, Bool.and_eq_true, Bool.or_eq_true,
          decide_eq_true_eq, Bool.not_eq_true'] at h2
        rcases h2.2 with h3 | h4
        · rw [htr] at h3
          exact absurd h3.2 (by simp)
        · exact Or.inr (Or.inr ⟨h4.1, h4.2⟩)

/-- Input of the C4 witness: a single user record that is its own boundary. -/
def c4wMsgs : List JObj :=
  [.cons (strLit "uuid") (J.str (strLit "r"))
    (.cons (strLit "type") (J.str (strLit "user")) .nil)]

/-- The final sequence the C4 witness compaction produces. -/
def c4wFinal : List JObj :=
  match compact c4wMsgs (J.str (strLit "r")) (strLit "sum") (strLit "s") (strLit "t") with
  | .ok (f, _) => f
  | .error _ => []

/-- Witness for C4 at a concrete one-record session. -/
theorem c4_compact_conservation_witness :
    c4wFinal.length = 1 +
      ((reparentFirst (strLit "s") (J.str (strLit "r")) c4wMsgs).filter
        (keptTail (collect_tail_uuids c4wMsgs (J.str (strLit "r"))))).length +
      ((reparentFirst (strLit "s") (J.str (strLit "r")) c4wMsgs).filter
        (keptStructural (collect_tail_uuids c4wMsgs (J.str (strLit "r"))))).length := by
  have h := c4_compact_conservation c4wMsgs (J.str (strLit "r")) (strLit "sum")
    (strLit "s") (strLit "t") c4wFinal ⟨1, 2, 0⟩ (by decide)
  exact h.1

/-- Input of the C4 counterexample: a boundary record plus a
`file-history-snapshot` that has its own uuid `x` (not in the tail) and a
`messageId` pointing at the boundary. -/
def c4cexMsgs : List JObj :=
  [.cons (strLit "uuid") (J.str (strLit "b"))
    (.cons (strLit "type") (J.str (strLit "user")) .nil),
   .cons (strLit "type") (J.str (strLit "file-history-snapshot"))
    (.cons (strLit "uuid") (J.str (strLit "x"))
    (.cons (strLit "messageId") (J.str (strLit "b")) .nil))]

/-- The final sequence the C4 counterexample compaction produces. -/
def c4cexFinal : List JObj :=
  match compact c4cexMsgs (J.str (strLit "b")) (strLit "sum") (strLit "s") (strLit "t") with
  | .ok (f, _) => f
  | .error _ => []

/-- C4 counterexample: the retained snapshot's own uuid `x` appears in the
final sequence but is neither the summary's uuid nor in tailUuids. -/
theorem c4_snapshot_uuid_counterexample :
    ¬ (∀ m ∈ c4cexFinal, pyTruthyOpt (m.get? (strLit "uuid")) = true →
        (m.get? (strLit "uuid")).getD J.null ∈
          collect_tail_uuids c4cexMsgs (J.str (strLit "b")) ∨
        (m.get? (strLit "uuid")).getD J.null = J.str (strLit "s")) := by
  decide

theorem reparentFirst_mem (su : Str) (b : J) :
    ∀ (messages : List JObj) (m : JObj), m ∈ reparentFirst su b messages →
      m ∈ messages ∨ ∃ m0 ∈ messages, m0.get? (strLit "uuid") = some b ∧
        m = m0.set (strLit "parentUuid") (J.str su)
  | [], m, hm => absurd hm (List.not_mem_nil m)
  | m0 :: rest, m, hm => by
    by_cases hb : m0.get? (strLit "uuid") = some b
    · simp only [reparentFirst, hb, if_pos] at hm
      rcases List.mem_cons.mp hm with he | hr
      · exact Or.inr ⟨m0, List.mem_cons_self _ _, hb, he⟩
      · exact Or.inl (List.mem_cons_of_mem _ hr)
    · simp only [reparentFirst, hb, if_neg, if_false] at hm
      rcases List.mem_cons.mp hm with he | hr
      · exact Or.inl (he ▸ List.mem_cons_self _ _)
      · rcases reparentFirst_mem su b rest m hr with h | ⟨mx, hmx, hbx, hex⟩
        · exact Or.inl (List.mem_cons_of_mem _ h)
        · exact Or.inr ⟨mx, List.mem_cons_of_mem _ hmx, hbx, hex⟩

/-- C8: in a successful compaction the retained records follow the summary
in their original relative order (they form a subsequence of the reparented
input), every retained record is an unchanged input record except for the
first record whose uuid equals the boundary, and that record differs from
its input only in its `parentUuid` field, which now holds the summary's
uuid. -/
theorem c8_compact_frame (messages : List JObj) (b : J) (text su ts : Str)
    (final : List JObj) (stats : CompactStats)
    (h : compact messages b text su ts = .ok (final, stats)) :
    final.head? = some (build_summary_message text (get_session_metadata messages) su ts) ∧
    (final.drop 1).Sublist (reparentFirst su b messages) ∧
    (∀ m ∈ final.drop 1, m ∈ messages ∨
      ∃ m0 ∈ messages, m0.get? (strLit "uuid") = some b ∧
        m = m0.set (strLit "parentUuid") (J.str su)) ∧
    (∀ (m0 : JObj) (v : J),
      (m0.set (strLit "parentUuid") v).get? (strLit "parentUuid") = some v ∧
      ∀ k, k ≠ strLit "parentUuid" → (m0.set (strLit "parentUuid") v).get? k = m0.get? k) := by
  obtain ⟨hf, _⟩ := compact_ok messages b text su ts final stats h
  subst hf
  refine ⟨rfl, ?_, ?_, ?_⟩
  · simp only [List.drop_one, List.tail_cons]
    exact List.filter_sublist _
  · intro m hm
    simp only [List.drop_one, List.tail_cons] at hm
    exact reparentFirst_mem su b messages m (List.mem_of_mem_filter hm)
  · intro m0 v
    exact ⟨JObj.get?_set_self m0 _ v, fun k hk =>
      JObj.get?_set_ne m0 _ k v (fun he => hk he.symm)⟩

/-- Input of the C8 witness: one user record without a `parentUuid`. -/
def c8wMsgs : List JObj :=
  [.cons (strLit "uuid") (J.str (strLit "r"))
    (.cons (strLit "type") (J.str (strLit "user")) .nil)]

/-- The final sequence the C8 witness compaction produces. -/
def c8wFinal : List JObj :=
  match compact c8wMsgs (J.str (strLit "r")) (strLit "sum") (strLit "s") (strLit "t") with
  | .ok (f, _) => f
  | .error _ => []

/-- Witness for C8 at a concrete one-record session. -/
theorem c8_compact_frame_witness :
    c8wFinal.head? =
      some (build_summary_message (strLit "sum") (get_session_metadata c8wMsgs)
        (strLit "s") (strLit "t")) ∧
    (c8wFinal.drop 1).Sublist (reparentFirst (strLit "s") (J.str (strLit "r")) c8wMsgs) := by
  have h := c8_compact_frame c8wMsgs (J.str (strLit "r")) (strLit "sum") (strLit "s")
    (strLit "t") c8wFinal ⟨1, 2, 0⟩ (by decide)
  exact ⟨h.1, h.2.1⟩

/-! ### `json.loads` / `load_messages` / `save_messages` (claim C5)

A recursive-descent parser for the JSON fragment the program round-trips
(numbers restricted to integers, as in the whole model; a lone surrogate
escape, which Python would keep as an unpairable code unit, has no `Char`
representation and is a parse failure).  Parse failure models
`json.JSONDecodeError`.  The value parser is fuelled so that it reduces in
the kernel; `loads` passes fuel that provably always suffices. -/

/-- The whitespace `json.loads` skips. -/
def isJsonWs (c : Char) : Bool := c = ' ' || c = '\t' || c = '\n' || c = '\r'

/-- Skip JSON whitespace. -/
def skipWs (s : Str) : Str := s.dropWhile isJsonWs

/-- The numeric value of one hex digit. -/
def hexVal (c : Char) : Option Nat :=
  if '0' ≤ c ∧ c ≤ '9' then some (c.toNat - 48)
  else if 'a' ≤ c ∧ c ≤ 'f' then some (c.toNat - 87)
  else if 'A' ≤ c ∧ c ≤ 'F' then some (c.toNat - 55)
  else none

/-- The named escapes (the scanner's `BACKSLASH` table). -/
def parseEsc (e : Char) : Option Char :=
  if e = '"' then some '"'
  else if e = '\\' then some '\\'
  else if e = '/' then some '/'
  else if e = 'b' then some '\x08'
  else if e = 'f' then some '\x0c'
  else if e = 'n' then some '\n'
  else if e = 'r' then some '\r'
  else if e = 't' then some '\t'
  else none

/-- Read four hex digits and their value. -/
def hex4Val : Str → Option (Nat × Str)
  | a :: b :: c :: d :: rest =>
    match hexVal a, hexVal b, hexVal c, hexVal d with
    | some ha, some hb, some hc, some hd => some (((ha * 16 + hb) * 16 + hc) * 16 + hd, rest)
    | _, _, _, _ => none
  | _ => none

/-- Decode the `XXXX` (or surrogate-pair `XXXX\uYYYY`) after a `\u`. -/
def parseUEscape (s : Str) : Option (Char × Str) :=
  match hex4Val s with
  | none => none
  | some (n, rest3) =>
    if 0xd800 ≤ n ∧ n ≤ 0xdbff then
      match rest3 with
      | e2 :: u2 :: rest3b =>
        if e2 = '\\' ∧ u2 = 'u' then
          match hex4Val rest3b with
          | some (n2, rest4) =>
            if 0xdc00 ≤ n2 ∧ n2 ≤ 0xdfff then
              some (Char.ofNat (0x10000 + (n - 0xd800) * 0x400 + (n2 - 0xdc00)), rest4)
            else none
          | none => none
        else none
      | _ => none
    else if 0xdc00 ≤ n ∧ n ≤ 0xdfff then none
    else some (Char.ofNat n, rest3)

/-- The character-by-character loop of the string scanner, fuelled so that it
reduces in the kernel (each step consumes at least one input character, so
fuel beyond the input length never runs out). -/
def parseStrLoop : Nat → Str → Option (Str × Str)
  | 0, _ => none
  | fuel + 1, s =>
    match s with
    | [] => none
    | c :: rest =>
      if c = '"' then some ([], rest)
      else if c = '\\' then
        match rest with
        | [] => none
        | e :: rest2 =>
          if e = 'u' then
            match parseUEscape rest2 with
            | some (ch, rest3) => (parseStrLoop fuel rest3).map (fun r => (ch :: r.1, r.2))
            | none => none
          else
            match parseEsc e with
            | some d => (parseStrLoop fuel rest2).map (fun r => (d :: r.1, r.2))
            | none => none
      else if c.toNat < 0x20 then none
      else (parseStrLoop fuel rest).map (fun r => (c :: r.1, r.2))

/-- Parse the body of a string literal up to its closing quote, decoding
escapes (including `\uXXXX` and surrogate pairs). -/
def parseStringBody (s : Str) : Option (Str × Str) := parseStrLoop (s.length + 1) s

/-- Greedily read decimal digits, accumulating their value. -/
def parseDigits : Str → Nat → Nat × Str
  | [], acc => (acc, [])
  | c :: rest, acc =>
    if '0' ≤ c ∧ c ≤ '9' then parseDigits rest (acc * 10 + (c.toNat - 48))
    else (acc, c :: rest)

/-- Parse the integral part per the JSON grammar (`0` or a nonzero-led
digit run). -/
def parseNumPart : Str → Option (Nat × Str)
  | [] => none
  | c :: rest =>
    if c = '0' then some (0, rest)
    else if '1' ≤ c ∧ c ≤ '9' then some (parseDigits rest (c.toNat - 48))
    else none

/-- Parse an (integer) JSON number with optional minus sign. -/
def parseNumber : Str → Option (Int × Str)
  | [] => none
  | c :: rest =>
    if c = '-' then (parseNumPart rest).map (fun r => (-(r.1 : Int), r.2))
    else (parseNumPart (c :: rest)).map (fun r => ((r.1 : Int), r.2))

/-- `dict(pairs)`: build a Python dict by assigning the pairs in order
(later duplicate keys overwrite in place). -/
def JObj.ofPairs (pairs : List (Str × J)) : JObj :=
  pairs.foldl (fun o kv => o.set kv.1 kv.2) .nil

/-- Reject a literal if the expected tail characters are not next. -/
def expectChars : Str → Str → Option Str
  | [], rest => some rest
  | _ :: _, [] => none
  | e :: es, c :: rest => if c = e then expectChars es rest else none

mutual
/-- Parse one JSON value. -/
def parseVal : Nat → Str → Option (J × Str)
  | 0, _ => none
  | fuel + 1, s =>
    match s with
    | [] => none
    | c :: rest =>
      if c = 'n' then (expectChars (strLit "ull") rest).map (fun r => (J.null, r))
      else if c = 't' then (expectChars (strLit "rue") rest).map (fun r => (J.bool true, r))
      else if c = 'f' then (expectChars (strLit "alse") rest).map (fun r => (J.bool false, r))
      else if c = '"' then (parseStringBody rest).map (fun r => (J.str r.1, r.2))
      else if c = '[' then
        match skipWs rest with
        | [] => none
        | c2 :: rest2 =>
          if c2 = ']' then some (J.arr .nil, rest2)
          else (parseElems fuel (c2 :: rest2)).map (fun r => (J.arr r.1, r.2))
      else if c = '{' then
        match skipWs rest with
        | [] => none
        | c2 :: rest2 =>
          if c2 = '}' then some (J.obj .nil, rest2)
          else (parseMembers fuel (c2 :: rest2)).map (fun r => (J.obj (JObj.ofPairs r.1), r.2))
      else (parseNumber (c :: rest)).map (fun r => (J.num r.1, r.2))
/-- Parse the elements of a non-empty array, consuming the closing `]`. -/
def parseElems : Nat → Str → Option (JArr × Str)
  | 0, _ => none
  | fuel + 1, s =>
    match parseVal fuel s with
    | none => none
    | some (v, r) =>
      match skipWs r with
      | [] => none
      | c :: r2 =>
        if c = ',' then (parseElems fuel (skipWs r2)).map (fun t => (JArr.cons v t.1, t.2))
        else if c = ']' then some (JArr.cons v .nil, r2)
        else none
/-- Parse the members of a non-empty object, consuming the closing `}`;
returns the key/value pairs in source order. -/
def parseMembers : Nat → Str → Option (List (Str × J) × Str)
  | 0, _ => none
  | fuel + 1, s =>
    match s with
    | [] => none
    | c :: rest =>
      if c = '"' then
        match parseStringBody rest with
        | none => none
        | some (k, r) =>
          match skipWs r with
          | [] => none
          | c2 :: r2 =>
            if c2 = ':' then
              match parseVal fuel (skipWs r2) with
              | none => none
              | some (v, r3) =>
                match skipWs r3 with
                | [] => none
                | c3 :: r4 =>
                  if c3 = ',' then
                    (parseMembers fuel (skipWs r4)).map (fun t => ((k, v) :: t.1, t.2))
                  else if c3 = '}' then some ([(k, v)], r4)
                  else none
            else none
      else none
end

/-- `json.loads(s)` (`none` is a `JSONDecodeError`). -/
def loads (s : Str) : Option J :=
  match parseVal (s.length + 1) (skipWs s) with
  | none => none
  | some (v, r) => if skipWs r = [] then some v else none

/-- The record `load_messages` builds for an unparseable line
(session.py line 57). -/
def parseErrorRecord (line : Str) (i : Nat) : JObj :=
  .cons (strLit "_raw") (J.str line)
    (.cons (strLit "_parse_error") (J.bool true)
    (.cons (strLit "_line_index") (J.num i) .nil))

/-- The line loop of `load_messages` (session.py lines 45-58), carrying the
`enumerate` index.  A line whose JSON value is not an object makes Python
raise an uncaught `TypeError` at `msg["_line_index"] = i`, modelled as
`none`. -/
def loadLines : Nat → List Str → Option (List JObj)
  | _, [] => some []
  | i, line :: rest =>
    let stripped := pyStrip line
    if stripped.isEmpty then loadLines (i + 1) rest
    else
      match loads stripped with
      | some (J.obj o) =>
        (loadLines (i + 1) rest).map
          (fun t => (o.set (strLit "_line_index") (J.num i)) :: t)
      | some _ => none
      | none =>
        (loadLines (i + 1) rest).map (fun t => parseErrorRecord stripped i :: t)

/-- `load_messages(path)` on the file's lines. -/
def load_messages (lines : List Str) : Option (List JObj) := loadLines 0 lines

/-- `k.startswith("_")`. -/
def startsUnderscore : Str → Bool
  | [] => false
  | c :: _ => c = '_'

/-- The line `save_messages` writes for one record (session.py lines 79-85):
the raw text for a parse-error record, otherwise the compact serialization
with every `_`-prefixed internal key stripped. -/
def serializeRecord (m : JObj) : Str :=
  if pyTruthy (m.getD (strLit "_parse_error") J.null) then
    match m.get? (strLit "_raw") with
    | some (J.str s) => s
    | _ => []
  else
    J.dumps (J.obj (m.filterKeys (fun k => !startsUnderscore k)))

/-- The file content `save_messages(path, messages)` writes (one line plus
newline per record; the timestamped backup and the
write-to-temp-then-atomic-rename discipline are file-system effects outside
the model). -/
def save_messages (messages : List JObj) : Str :=
  (messages.map (fun m => serializeRecord m ++ ['\n'])).flatten

/-- A list of lines as a file: each line followed by a newline. -/
def linesToFile (lines : List Str) : Str := (lines.map (fun l => l ++ ['\n'])).flatten

mutual
/-- Recursively: every object has pairwise distinct keys (true of every
value `json.loads` can produce, since Python dicts cannot repeat keys). -/
def J.uniqKeys : J → Bool
  | .null => true
  | .bool _ => true
  | .num _ => true
  | .str _ => true
  | .arr a => JArr.uniqKeysA a
  | .obj o => JObj.uniqKeysO o
/-- Array version of `J.uniqKeys`. -/
def JArr.uniqKeysA : JArr → Bool
  | .nil => true
  | .cons h t => h.uniqKeys && t.uniqKeysA
/-- Object version of `J.uniqKeys`. -/
def JObj.uniqKeysO : JObj → Bool
  | .nil => true
  | .cons k v t => !t.hasKey k && v.uniqKeys && t.uniqKeysO
end

/-! ### C5 round-trip, step 1: numbers parse back -/

/-- A string that does not begin with a decimal digit (so a digit run ending
right before it is read back in full). -/
def notDigitStart : Str → Prop
  | [] => True
  | c :: _ => ¬(48 ≤ c.toNat ∧ c.toNat ≤ 57)

theorem toNat_ofNat_valid (n : Nat) (h : n.isValidChar) : (Char.ofNat n).toNat = n := by
  simp only [Char.ofNat, h, dif_pos, Char.ofNatAux, Char.toNat]
  rfl

theorem toNat_ofNat_digit (n : Nat) (h : n < 10) : (Char.ofNat (48 + n)).toNat = 48 + n :=
  toNat_ofNat_valid _ (Or.inl (by omega))

/-- The accumulated-value function of `parseDigits`. -/
def digitsVal (acc : Nat) (s : Str) : Nat :=
  s.foldl (fun a c => a * 10 + (c.toNat - 48)) acc

theorem parseDigits_run : ∀ (s rest : Str) (acc : Nat),
    (∀ c ∈ s, 48 ≤ c.toNat ∧ c.toNat ≤ 57) → notDigitStart rest →
    parseDigits (s ++ rest) acc = (digitsVal acc s, rest)
  | [], [], acc, _, _ => by simp [parseDigits, digitsVal]
  | [], c :: t, acc, _, hr => by
    have hc : ¬('0' ≤ c ∧ c ≤ '9') := fun h => hr ⟨h.1, h.2⟩
    simp [parseDigits, digitsVal, hc]
  | c :: s, rest, acc, hs, hr => by
    have hc : ('0' ≤ c ∧ c ≤ '9') := by
      have := hs c (List.mem_cons_self c s)
      exact ⟨this.1, this.2⟩
    simp only [List.cons_append, parseDigits, if_pos hc, List.append_eq]
    rw [parseDigits_run s rest _ (fun x hx => hs x (List.mem_cons_of_mem c hx)) hr]
    simp [digitsVal]

theorem natDigitsAux_acc : ∀ (fuel n : Nat) (acc : Str), n < fuel →
    natDigitsAux fuel n acc = natDigitsAux fuel n [] ++ acc
  | 0, n, acc, h => absurd h (Nat.not_lt_zero n)
  | fuel + 1, n, acc, h => by
    by_cases h10 : n < 10
    · simp [natDigitsAux, h10]
    · have hdiv : n / 10 < fuel := by omega
      simp only [natDigitsAux, if_neg h10]
      rw [natDigitsAux_acc fuel (n / 10) _ hdiv,
        natDigitsAux_acc fuel (n / 10) [Char.ofNat (48 + n % 10)] hdiv]
      simp

theorem natDigitsAux_fuel : ∀ (f1 f2 n : Nat) (acc : Str), n < f1 → n < f2 →
    natDigitsAux f1 n acc = natDigitsAux f2 n acc
  | 0, _, n, _, h1, _ => absurd h1 (Nat.not_lt_zero n)
  | _, 0, n, _, _, h2 => absurd h2 (Nat.not_lt_zero n)
  | f1 + 1, f2 + 1, n, acc, h1, h2 => by
    by_cases h10 : n < 10
    · simp [natDigitsAux, h10]
    · simp only [natDigitsAux, if_neg h10]
      exact natDigitsAux_fuel f1 f2 (n / 10) _ (by omega) (by omega)

theorem natDigits_unfold (n : Nat) :
    natDigits n = if n < 10 then [Char.ofNat (48 + n)]
      else natDigits (n / 10) ++ [Char.ofNat (48 + n % 10)] := by
  by_cases h10 : n < 10
  · simp [natDigits, natDigitsAux, h10]
  · have hdiv : n / 10 < n := Nat.div_lt_self (by omega) (by omega)
    rw [if_neg h10]
    have step : natDigitsAux (n + 1) n [] =
        natDigitsAux n (n / 10) [Char.ofNat (48 + n % 10)] := by
      simp only [natDigitsAux, if_neg h10]
    show natDigitsAux (n + 1) n [] = natDigitsAux (n / 10 + 1) (n / 10) [] ++ _
    rw [step, natDigitsAux_acc n (n / 10) _ hdiv,
      natDigitsAux_fuel n (n / 10 + 1) (n / 10) [] hdiv (Nat.lt_succ_self _)]

theorem natDigits_all_digits (n : Nat) :
    ∀ c ∈ natDigits n, 48 ≤ c.toNat ∧ c.toNat ≤ 57 := by
  induction n using Nat.strong_induction_on with
  | _ n ih =>
    rw [natDigits_unfold]
    by_cases h10 : n < 10
    · simp only [if_pos h10, List.mem_singleton]
      rintro c rfl
      rw [toNat_ofNat_digit n h10]
      omega
    · simp only [if_neg h10, List.mem_append, List.mem_singleton]
      rintro c (hc | rfl)
      · exact ih (n / 10) (Nat.div_lt_self (by omega) (by omega)) c hc
      · rw [toNat_ofNat_digit (n % 10) (Nat.mod_lt n (by omega))]
        omega

theorem digitsVal_natDigits (n : Nat) : digitsVal 0 (natDigits n) = n := by
  induction n using Nat.strong_induction_on with
  | _ n ih =>
    rw [natDigits_unfold]
    by_cases h10 : n < 10
    · simp [if_pos h10, digitsVal, toNat_ofNat_digit n h10]
    · simp only [if_neg h10, digitsVal, List.foldl_append, List.foldl_cons, List.foldl_nil]
      have := ih (n / 10) (Nat.div_lt_self (by omega) (by omega))
      rw [digitsVal] at this
      rw [this, toNat_ofNat_digit (n % 10) (Nat.mod_lt n (by omega))]
      omega

theorem natDigits_head (n : Nat) (hn : 1 ≤ n) :
    ∃ c t, natDigits n = c :: t ∧ 49 ≤ c.toNat ∧ c.toNat ≤ 57 := by
  induction n using Nat.strong_induction_on with
  | _ n ih =>
    rw [natDigits_unfold]
    by_cases h10 : n < 10
    · exact ⟨Char.ofNat (48 + n), [], by simp [h10], by rw [toNat_ofNat_digit n h10]; omega⟩
    · obtain ⟨c, t, he, h1, h2⟩ :=
        ih (n / 10) (Nat.div_lt_self (by omega) (by omega)) (by omega)
      exact ⟨c, t ++ [Char.ofNat (48 + n % 10)], by simp [h10, he], h1, h2⟩

theorem natDigits_ne_nil (n : Nat) : natDigits n ≠ [] := by
  rw [natDigits_unfold]
  by_cases h10 : n < 10 <;> simp [h10]

theorem parseNumPart_natDigits (n : Nat) (rest : Str) (hr : notDigitStart rest) :
    parseNumPart (natDigits n ++ rest) = some (n, rest) := by
  rcases Nat.eq_zero_or_pos n with rfl | hn
  · have h0 : natDigits 0 = ['0'] := by decide
    rw [h0]
    simp [parseNumPart]
  · obtain ⟨c, t, he, h1, h2⟩ := natDigits_head n hn
    have hc0 : ¬(c = '0') := fun h => by
      rw [h] at h1
      exact absurd h1 (by decide)
    have hc19 : ('1' ≤ c ∧ c ≤ '9') := ⟨h1, h2⟩
    rw [he]
    simp only [List.cons_append, parseNumPart, if_neg hc0, if_pos hc19]
    have ht : ∀ x ∈ t, 48 ≤ x.toNat ∧ x.toNat ≤ 57 := fun x hx =>
      natDigits_all_digits n x (by rw [he]; exact List.mem_cons_of_mem c hx)
    rw [parseDigits_run t rest (c.toNat - 48) ht hr]
    have hv : digitsVal (c.toNat - 48) t = n := by
      have := digitsVal_natDigits n
      rw [he] at this
      simpa [digitsVal] using this
    rw [hv]

theorem parseNumber_intDigits (i : Int) (rest : Str) (hr : notDigitStart rest) :
    parseNumber (intDigits i ++ rest) = some (i, rest) := by
  match i with
  | .ofNat n =>
    rcases Nat.eq_zero_or_pos n with rfl | hn
    · have h0 : natDigits 0 = ['0'] := by decide
      simp [intDigits, h0, parseNumber, parseNumPart]
    · obtain ⟨c, t, he, h1, h2⟩ := natDigits_head n hn
      have hcm : ¬(c = '-') := fun h => by
        rw [h] at h1
        exact absurd h1 (by decide)
      simp only [intDigits, he, List.cons_append, parseNumber, if_neg hcm]
      rw [← List.cons_append, ← he, parseNumPart_natDigits n rest hr]
      simp
  | .negSucc n =>
    simp only [intDigits, List.cons_append, parseNumber, if_pos rfl]
    rw [parseNumPart_natDigits (n + 1) rest hr]
    simp [Int.negSucc_eq]

/-! ### C5 round-trip, step 2: escaped strings parse back -/

theorem hexVal_hexDigit (d : Nat) (h : d < 16) : hexVal (hexDigit d) = some d := by
  interval_cases d <;> decide

theorem char_valid_nat (c : Char) :
    c.toNat < 0xd800 ∨ (0xdfff < c.toNat ∧ c.toNat < 0x110000) := c.valid

theorem hex4Val_hex4 (n : Nat) (hn : n < 0x10000) (rest : Str) :
    hex4Val (hex4 n ++ rest) = some (n, rest) := by
  have ha := hexVal_hexDigit (n / 4096 % 16) (Nat.mod_lt _ (by norm_num))
  have hb := hexVal_hexDigit (n / 256 % 16) (Nat.mod_lt _ (by norm_num))
  have hc := hexVal_hexDigit (n / 16 % 16) (Nat.mod_lt _ (by norm_num))
  have hd := hexVal_hexDigit (n % 16) (Nat.mod_lt _ (by norm_num))
  have hre : ((n / 4096 % 16 * 16 + n / 256 % 16) * 16 + n / 16 % 16) * 16 + n % 16 = n := by
    omega
  simp only [hex4, List.cons_append, List.nil_append, hex4Val, ha, hb, hc, hd, hre]

theorem parseUEscape_bmp (n : Nat) (hn : n < 0x10000) (hs1 : ¬(0xd800 ≤ n ∧ n ≤ 0xdbff))
    (hs2 : ¬(0xdc00 ≤ n ∧ n ≤ 0xdfff)) (rest : Str) :
    parseUEscape (hex4 n ++ rest) = some (Char.ofNat n, rest) := by
  simp only [parseUEscape, hex4Val_hex4 n hn rest]
  rw [if_neg hs1, if_neg hs2]

theorem parseUEscape_surr (n m : Nat) (hn : 0xd800 ≤ n ∧ n ≤ 0xdbff)
    (hm : 0xdc00 ≤ m ∧ m ≤ 0xdfff) (rest : Str) :
    parseUEscape (hex4 n ++ ('\\' :: 'u' :: (hex4 m ++ rest))) =
      some (Char.ofNat (0x10000 + (n - 0xd800) * 0x400 + (m - 0xdc00)), rest) := by
  simp only [parseUEscape, hex4Val_hex4 n (by omega) _]
  rw [if_pos hn]
  simp only [hex4Val_hex4 m (by omega) rest, reduceIte]
  simp [hm.1, hm.2]

theorem parseStrLoop_quote (fuel : Nat) (rest : Str) :
    parseStrLoop (fuel + 1) ('"' :: rest) = some ([], rest) := by
  simp only [parseStrLoop, reduceIte]

theorem parseStrLoop_escNamed (fuel : Nat) (e d : Char) (s2 s' rest : Str)
    (he : parseEsc e = some d) (hu : ¬e = 'u')
    (h : parseStrLoop fuel s2 = some (s', rest)) :
    parseStrLoop (fuel + 1) ('\\' :: e :: s2) = some (d :: s', rest) := by
  simp only [parseStrLoop, reduceIte, if_neg hu, he, h, Option.map_some']
  exact if_neg (by decide)

theorem parseStrLoop_escU (fuel : Nat) (ch : Char) (u rest3 s' rest : Str)
    (hue : parseUEscape u = some (ch, rest3))
    (h : parseStrLoop fuel rest3 = some (s', rest)) :
    parseStrLoop (fuel + 1) ('\\' :: 'u' :: u) = some (ch :: s', rest) := by
  simp only [parseStrLoop, reduceIte, hue, h, Option.map_some']
  exact if_neg (by decide)

theorem parseStrLoop_plain (fuel : Nat) (c : Char) (s2 s' rest : Str) (h1 : ¬c = '"')
    (h2 : ¬c = '\\') (h3 : ¬c.toNat < 0x20) (h : parseStrLoop fuel s2 = some (s', rest)) :
    parseStrLoop (fuel + 1) (c :: s2) = some (c :: s', rest) := by
  simp only [parseStrLoop, if_neg h1, if_neg h2, if_neg h3, h, Option.map_some']

theorem parseStrLoop_escChar (fuel : Nat) (c : Char) (s2 s' rest : Str)
    (h : parseStrLoop fuel s2 = some (s', rest)) :
    parseStrLoop (fuel + 1) (escChar c ++ s2) = some (c :: s', rest) := by
  by_cases h1 : c = '"'
  · subst h1
    rw [show escChar '"' ++ s2 = '\\' :: '"' :: s2 from rfl]
    exact parseStrLoop_escNamed fuel '"' '"' s2 s' rest (by decide) (by decide) h
  by_cases h2 : c = '\\'
  · subst h2
    rw [show escChar '\\' ++ s2 = '\\' :: '\\' :: s2 from rfl]
    exact parseStrLoop_escNamed fuel '\\' '\\' s2 s' rest (by decide) (by decide) h
  by_cases h3 : c = '\n'
  · subst h3
    rw [show escChar '\n' ++ s2 = '\\' :: 'n' :: s2 from rfl]
    exact parseStrLoop_escNamed fuel 'n' '\n' s2 s' rest (by decide) (by decide) h
  by_cases h4 : c = '\r'
  · subst h4
    rw [show escChar '\r' ++ s2 = '\\' :: 'r' :: s2 from rfl]
    exact parseStrLoop_escNamed fuel 'r' '\r' s2 s' rest (by decide) (by decide) h
  by_cases h5 : c = '\t'
  · subst h5
    rw [show escChar '\t' ++ s2 = '\\' :: 't' :: s2 from rfl]
    exact parseStrLoop_escNamed fuel 't' '\t' s2 s' rest (by decide) (by decide) h
  by_cases h6 : c = '\x08'
  · subst h6
    rw [show escChar '\x08' ++ s2 = '\\' :: 'b' :: s2 from rfl]
    exact parseStrLoop_escNamed fuel 'b' '\x08' s2 s' rest (by decide) (by decide) h
  by_cases h7 : c = '\x0c'
  · subst h7
    rw [show escChar '\x0c' ++ s2 = '\\' :: 'f' :: s2 from rfl]
    exact parseStrLoop_escNamed fuel 'f' '\x0c' s2 s' rest (by decide) (by decide) h
  have hv := char_valid_nat c
  by_cases h8 : c.toNat < 0x20 ∨ 0x7e < c.toNat
  · by_cases h16 : c.toNat < 0x10000
    · -- a single \uXXXX escape
      have hesc : escChar c ++ s2 = '\\' :: 'u' :: (hex4 c.toNat ++ s2) := by
        simp only [escChar, if_neg h1, if_neg h2, if_neg h3, if_neg h4, if_neg h5,
          if_neg h6, if_neg h7, if_pos h8, if_pos h16, List.cons_append]
      rw [hesc, parseStrLoop_escU fuel (Char.ofNat c.toNat) _ s2 s' rest
        (parseUEscape_bmp c.toNat h16 (by omega) (by omega) s2) h, Char.ofNat_toNat]
    · -- a surrogate pair
      have hlt : c.toNat < 0x110000 := by omega
      have hesc : escChar c ++ s2 = '\\' :: 'u' ::
          (hex4 (0xd800 + (c.toNat - 0x10000) / 0x400) ++
            ('\\' :: 'u' :: (hex4 (0xdc00 + (c.toNat - 0x10000) % 0x400) ++ s2))) := by
        simp only [escChar, if_neg h1, if_neg h2, if_neg h3, if_neg h4, if_neg h5,
          if_neg h6, if_neg h7, if_pos h8, if_neg h16, List.cons_append, List.append_assoc]
      have hchar : 0x10000 + (0xd800 + (c.toNat - 0x10000) / 0x400 - 0xd800) * 0x400 +
          (0xdc00 + (c.toNat - 0x10000) % 0x400 - 0xdc00) = c.toNat := by omega
      rw [hesc, parseStrLoop_escU fuel _ _ s2 s' rest
        (parseUEscape_surr (0xd800 + (c.toNat - 0x10000) / 0x400)
          (0xdc00 + (c.toNat - 0x10000) % 0x400) (by omega) (by omega) s2) h,
        hchar, Char.ofNat_toNat]
  · -- printable ASCII, written verbatim
    have hesc : escChar c ++ s2 = c :: s2 := by
      simp only [escChar, if_neg h1, if_neg h2, if_neg h3, if_neg h4, if_neg h5,
        if_neg h6, if_neg h7, if_neg h8, List.cons_append, List.nil_append]
    rw [hesc]
    exact parseStrLoop_plain fuel c s2 s' rest h1 h2 (by omega) h

theorem parseStrLoop_escString : ∀ (fuel : Nat) (s rest : Str), s.length < fuel →
    parseStrLoop fuel (escString s ++ '"' :: rest) = some (s, rest)
  | 0, s, _, h => absurd h (by omega)
  | fuel + 1, [], rest, _ => by
    show parseStrLoop (fuel + 1) ('"' :: rest) = some ([], rest)
    exact parseStrLoop_quote fuel rest
  | fuel + 1, c :: s, rest, h => by
    have ih := parseStrLoop_escString fuel s rest (by simpa using Nat.lt_of_succ_lt_succ h)
    have hes : escString (c :: s) ++ '"' :: rest =
        escChar c ++ (escString s ++ '"' :: rest) := by
      simp [escString]
    rw [hes]
    exact parseStrLoop_escChar fuel c (escString s ++ '"' :: rest) s rest ih

theorem escChar_length_pos (c : Char) : 0 < (escChar c).length := by
  unfold escChar
  split_ifs <;> simp

theorem escString_length_ge : ∀ s : Str, s.length ≤ (escString s).length
  | [] => by simp [escString]
  | c :: s => by
    have h1 := escChar_length_pos c
    have h2 := escString_length_ge s
    have : escString (c :: s) = escChar c ++ escString s := by simp [escString]
    rw [this]
    simp only [List.length_append, List.length_cons]
    omega

theorem parseStringBody_escString (s rest : Str) :
    parseStringBody (escString s ++ '"' :: rest) = some (s, rest) := by
  have h1 := escString_length_ge s
  refine parseStrLoop_escString _ s rest ?_
  simp only [List.length_append, List.length_cons]
  omega

/-! ### C5 round-trip, step 3: fuel bounds, head characters, dict rebuilding -/

mutual
/-- Fuel sufficient for `parseVal` to parse the serialization of a value. -/
def J.needF : J → Nat
  | .null => 1
  | .bool _ => 1
  | .num _ => 1
  | .str _ => 1
  | .arr a => 1 + JArr.needFA a
  | .obj o => 1 + JObj.needFO o
/-- Fuel sufficient for `parseElems` on a serialized element list. -/
def JArr.needFA : JArr → Nat
  | .nil => 0
  | .cons h t => 1 + J.needF h + JArr.needFA t
/-- Fuel sufficient for `parseMembers` on a serialized member list. -/
def JObj.needFO : JObj → Nat
  | .nil => 0
  | .cons _ v t => 1 + J.needF v + JObj.needFO t
end

theorem J.needF_pos (v : J) : 1 ≤ J.needF v := by
  cases v <;> simp [J.needF]

theorem intDigits_ne_nil (i : Int) : intDigits i ≠ [] := by
  cases i with
  | ofNat n => exact natDigits_ne_nil n
  | negSucc n => simp [intDigits]

mutual
theorem J.needF_le : ∀ v : J, J.needF v ≤ (J.dumps v).length
  | .null => by simp [J.needF, J.dumps, strLit]
  | .bool b => by cases b <;> simp [J.needF, J.dumps, strLit]
  | .num n => by
    simpa [J.needF, J.dumps] using List.length_pos.mpr (intDigits_ne_nil n)
  | .str s => by simp [J.needF, J.dumps, dumpStr]
  | .arr a => by
    have := JArr.needFA_le a
    simp only [J.needF, J.dumps, List.length_cons, List.length_append]
    omega
  | .obj o => by
    have := JObj.needFO_le o
    simp only [J.needF, J.dumps, List.length_cons, List.length_append]
    omega
theorem JArr.needFA_le : ∀ a : JArr, JArr.needFA a ≤ (JArr.dumpsElems a).length + 1
  | .nil => by simp [JArr.needFA]
  | .cons h .nil => by
    have := J.needF_le h
    simp only [JArr.needFA, JArr.dumpsElems, JArr.needFA]
    omega
  | .cons h (.cons h2 t) => by
    have hh := J.needF_le h
    have ht := JArr.needFA_le (.cons h2 t)
    simp only [JArr.needFA, JArr.dumpsElems, List.length_append, List.length_cons]
    simp only [JArr.needFA, JArr.dumpsElems] at ht
    omega
theorem JObj.needFO_le : ∀ o : JObj, JObj.needFO o ≤ (JObj.dumpsMembers o).length + 1
  | .nil => by simp [JObj.needFO]
  | .cons k v .nil => by
    have := J.needF_le v
    simp only [JObj.needFO, JObj.dumpsMembers, JObj.needFO, List.length_append,
      List.length_cons, dumpStr]
    omega
  | .cons k v (.cons k2 v2 t) => by
    have hv := J.needF_le v
    have ht := JObj.needFO_le (.cons k2 v2 t)
    simp only [JObj.needFO, JObj.dumpsMembers, List.length_append, List.length_cons, dumpStr]
    simp only [JObj.needFO, JObj.dumpsMembers] at ht
    omega
end

theorem natDigits_head48 (n : Nat) :
    ∃ c t, natDigits n = c :: t ∧ 48 ≤ c.toNat ∧ c.toNat ≤ 57 := by
  rcases he : natDigits n with _ | ⟨c, t⟩
  · exact absurd he (natDigits_ne_nil n)
  · exact ⟨c, t, rfl, natDigits_all_digits n c (by rw [he]; exact List.mem_cons_self c t)⟩

/-- The head character of a serialized value: never whitespace and never one
of the structural characters that end an enclosing element list. -/
theorem dumps_head (v : J) : ∃ c t, J.dumps v = c :: t ∧ isJsonWs c = false ∧
    ¬c = ']' ∧ ¬c = '}' ∧ ¬c = ',' := by
  have digitFacts : ∀ c : Char, 48 ≤ c.toNat → c.toNat ≤ 57 →
      isJsonWs c = false ∧ ¬c = ']' ∧ ¬c = '}' ∧ ¬c = ',' := by
    intro c h1 h2
    have hs : ¬c = ' ' := fun h => by subst h; exact absurd h1 (by decide)
    have ht : ¬c = '\t' := fun h => by subst h; exact absurd h1 (by decide)
    have hn : ¬c = '\n' := fun h => by subst h; exact absurd h1 (by decide)
    have hr : ¬c = '\r' := fun h => by subst h; exact absurd h1 (by decide)
    refine ⟨by simp [isJsonWs, hs, ht, hn, hr], ?_, ?_, ?_⟩
    · exact fun h => by subst h; exact absurd h2 (by decide)
    · exact fun h => by subst h; exact absurd h2 (by decide)
    · exact fun h => by subst h; exact absurd h1 (by decide)
  cases v with
  | null => exact ⟨'n', _, rfl, by decide, by decide, by decide, by decide⟩
  | bool b =>
    cases b
    · exact ⟨'f', _, rfl, by decide, by decide, by decide, by decide⟩
    · exact ⟨'t', _, rfl, by decide, by decide, by decide, by decide⟩
  | num n =>
    cases n with
    | ofNat m =>
      obtain ⟨c, t, he, h1, h2⟩ := natDigits_head48 m
      exact ⟨c, t, by simpa [J.dumps, intDigits] using he, digitFacts c h1 h2⟩
    | negSucc m =>
      exact ⟨'-', natDigits (m + 1), rfl, by decide, by decide, by decide, by decide⟩
  | str s =>
    exact ⟨'"', escString s ++ ['"'], rfl, by decide, by decide, by decide, by decide⟩
  | arr a =>
    exact ⟨'[', JArr.dumpsElems a ++ [']'], rfl, by decide, by decide, by decide, by decide⟩
  | obj o =>
    exact ⟨'{', JObj.dumpsMembers o ++ ['}'], rfl, by decide, by decide, by decide, by decide⟩

theorem skipWs_cons_false (c : Char) (t : Str) (h : isJsonWs c = false) :
    skipWs (c :: t) = c :: t := by
  simp [skipWs, List.dropWhile, h]

theorem skipWs_dumps_append (v : J) (rest : Str) :
    skipWs (J.dumps v ++ rest) = J.dumps v ++ rest := by
  obtain ⟨c, t, he, hws, _, _, _⟩ := dumps_head v
  rw [he, List.cons_append, skipWs_cons_false c (t ++ rest) hws]

theorem expectChars_self : ∀ (e rest : Str), expectChars e (e ++ rest) = some rest
  | [], rest => rfl
  | c :: e, rest => by simp [expectChars, expectChars_self e rest]

/-- The key/value pairs of a dict, in order. -/
def JObj.toPairs : JObj → List (Str × J)
  | .nil => []
  | .cons k v t => (k, v) :: t.toPairs

theorem JObj.hasKey_of_mem_toPairs : ∀ (o : JObj) (kv : Str × J),
    kv ∈ o.toPairs → o.hasKey kv.1 = true
  | .nil, kv, h => absurd h (by simp [JObj.toPairs])
  | .cons k v t, kv, h => by
    simp only [JObj.toPairs, List.mem_cons] at h
    rcases h with rfl | h
    · simp [JObj.hasKey, JObj.get?]
    · by_cases hk : k = kv.1
      · simp [JObj.hasKey, JObj.get?, hk]
      · simpa [JObj.hasKey, JObj.get?, hk] using JObj.hasKey_of_mem_toPairs t kv h

theorem foldl_set_cons (pairs : List (Str × J)) : ∀ (o : JObj) (k : Str) (v : J),
    (∀ kv ∈ pairs, kv.1 ≠ k) →
    pairs.foldl (fun o kv => o.set kv.1 kv.2) (JObj.cons k v o) =
      JObj.cons k v (pairs.foldl (fun o kv => o.set kv.1 kv.2) o) := by
  induction pairs with
  | nil => intro o k v _; rfl
  | cons p ps ih =>
    intro o k v hp
    simp only [List.foldl_cons]
    have hne : ¬(k = p.1) := fun h => hp p (List.mem_cons_self p ps) h.symm
    rw [show (JObj.cons k v o).set p.1 p.2 = JObj.cons k v (o.set p.1 p.2) from by
      simp [JObj.set, hne]]
    exact ih (o.set p.1 p.2) k v (fun kv hkv => hp kv (List.mem_cons_of_mem p hkv))

theorem JObj.ofPairs_toPairs : ∀ o : JObj, JObj.uniqKeysO o = true →
    JObj.ofPairs o.toPairs = o
  | .nil, _ => rfl
  | .cons k v t, h => by
    have h' := h
    simp only [JObj.uniqKeysO, Bool.and_eq_true, Bool.not_eq_true'] at h'
    obtain ⟨⟨hk, _⟩, ht⟩ := h'
    have hne : ∀ kv ∈ t.toPairs, kv.1 ≠ k := fun kv hkv heq => by
      have := JObj.hasKey_of_mem_toPairs t kv hkv
      rw [heq, hk] at this
      exact Bool.false_ne_true this
    show ((k, v) :: t.toPairs).foldl (fun o kv => o.set kv.1 kv.2) .nil = JObj.cons k v t
    rw [List.foldl_cons]
    rw [show JObj.nil.set k v = JObj.cons k v .nil from rfl]
    rw [foldl_set_cons t.toPairs .nil k v hne]
    rw [show t.toPairs.foldl (fun o kv => o.set kv.1 kv.2) .nil = JObj.ofPairs t.toPairs
      from rfl]
    rw [JObj.ofPairs_toPairs t ht]

/-! ### C5 round-trip, step 4: every serialized value parses back -/

theorem notDigitStart_cons (c : Char) (t : Str) (h : ¬(48 ≤ c.toNat ∧ c.toNat ≤ 57)) :
    notDigitStart (c :: t) := h

theorem intDigits_head (i : Int) : ∃ c t, intDigits i = c :: t ∧
    ¬c = 'n' ∧ ¬c = 't' ∧ ¬c = 'f' ∧ ¬c = '"' ∧ ¬c = '[' ∧ ¬c = '{' := by
  have digitFacts : ∀ c : Char, 48 ≤ c.toNat → c.toNat ≤ 57 →
      ¬c = 'n' ∧ ¬c = 't' ∧ ¬c = 'f' ∧ ¬c = '"' ∧ ¬c = '[' ∧ ¬c = '{' := by
    intro c h1 h2
    refine ⟨?_, ?_, ?_, ?_, ?_, ?_⟩ <;>
      exact fun h => by subst h; revert h1 h2; decide
  cases i with
  | ofNat m =>
    obtain ⟨c, t, he, h1, h2⟩ := natDigits_head48 m
    exact ⟨c, t, by simpa [intDigits] using he, digitFacts c h1 h2⟩
  | negSucc m =>
    exact ⟨'-', natDigits (m + 1), rfl, by decide, by decide, by decide, by decide,
      by decide, by decide⟩

theorem dumpsElems_cons_head (h : J) (t : JArr) (X : Str) :
    ∃ c ct, JArr.dumpsElems (.cons h t) ++ X = c :: ct ∧ isJsonWs c = false ∧ ¬c = ']' := by
  obtain ⟨c, ct, he, hws, hne, _, _⟩ := dumps_head h
  cases t with
  | nil => exact ⟨c, ct ++ X, by simp [JArr.dumpsElems, he], hws, hne⟩
  | cons h2 t2 =>
    exact ⟨c, ct ++ ',' :: (JArr.dumpsElems (.cons h2 t2) ++ X),
      by simp [JArr.dumpsElems, he], hws, hne⟩

theorem dumpsMembers_cons_head (k : Str) (v : J) (t : JObj) (X : Str) :
    ∃ ct, JObj.dumpsMembers (.cons k v t) ++ X = '"' :: ct := by
  cases t with
  | nil =>
    exact ⟨escString k ++ '"' :: (':' :: (J.dumps v ++ X)), by
      simp [JObj.dumpsMembers, dumpStr]⟩
  | cons k2 v2 t2 =>
    exact ⟨escString k ++ '"' :: (':' :: (J.dumps v ++ ',' ::
      (JObj.dumpsMembers (.cons k2 v2 t2) ++ X))), by simp [JObj.dumpsMembers, dumpStr]⟩

mutual
theorem parseVal_dumps : ∀ (fuel : Nat) (v : J) (rest : Str),
    J.uniqKeys v = true → J.needF v ≤ fuel → notDigitStart rest →
    parseVal fuel (J.dumps v ++ rest) = some (v, rest)
  | 0, v, _ => fun _ hf _ => absurd hf (by have := J.needF_pos v; omega)
  | fuel + 1, v, rest => fun hu hf hr => by
    cases v with
    | null =>
      have h1 : J.dumps J.null = 'n' :: strLit "ull" := by decide
      rw [h1, List.cons_append]
      simp only [parseVal, reduceIte, expectChars_self (strLit "ull") rest, Option.map_some']
    | bool b =>
      cases b
      · have h1 : J.dumps (J.bool false) = 'f' :: strLit "alse" := by decide
        rw [h1, List.cons_append]
        simp only [parseVal, reduceIte, expectChars_self (strLit "alse") rest,
          Option.map_some']
        rw [if_neg (show ¬('f' = 'n') by decide), if_neg (show ¬('f' = 't') by decide)]
      · have h1 : J.dumps (J.bool true) = 't' :: strLit "rue" := by decide
        rw [h1, List.cons_append]
        simp only [parseVal, reduceIte, expectChars_self (strLit "rue") rest,
          Option.map_some']
        rw [if_neg (show ¬('t' = 'n') by decide)]
    | num n =>
      obtain ⟨c, t, he, hn1, hn2, hn3, hn4, hn5, hn6⟩ := intDigits_head n
      rw [show J.dumps (J.num n) = intDigits n from rfl, he, List.cons_append]
      simp only [parseVal, if_neg hn1, if_neg hn2, if_neg hn3, if_neg hn4, if_neg hn5,
        if_neg hn6]
      rw [← List.cons_append, ← he, parseNumber_intDigits n rest hr, Option.map_some']
    | str s =>
      rw [show J.dumps (J.str s) ++ rest = '"' :: (escString s ++ '"' :: rest) from by
        simp [J.dumps, dumpStr]]
      simp only [parseVal, reduceIte, parseStringBody_escString s rest, Option.map_some']
      rw [if_neg (show ¬('"' = 'n') by decide), if_neg (show ¬('"' = 't') by decide),
        if_neg (show ¬('"' = 'f') by decide)]
    | arr a =>
      cases a with
      | nil =>
        rw [show J.dumps (J.arr .nil) ++ rest = '[' :: ']' :: rest from by
          simp [J.dumps, JArr.dumpsElems]]
        have hsw : skipWs (']' :: rest) = ']' :: rest := skipWs_cons_false _ _ (by decide)
        simp only [parseVal, reduceIte, hsw]
        rw [if_neg (show ¬('[' = 'n') by decide), if_neg (show ¬('[' = 't') by decide),
          if_neg (show ¬('[' = 'f') by decide), if_neg (show ¬('[' = '"') by decide)]
      | cons h t =>
        have hu' : JArr.uniqKeysA (.cons h t) = true := by simpa [J.uniqKeys] using hu
        have hf' : JArr.needFA (.cons h t) ≤ fuel := by simp [J.needF] at hf; omega
        obtain ⟨c2, ct2, hsh, hws2, hne2⟩ := dumpsElems_cons_head h t (']' :: rest)
        rw [show J.dumps (J.arr (.cons h t)) ++ rest =
            '[' :: (JArr.dumpsElems (.cons h t) ++ ']' :: rest) from by simp [J.dumps]]
        have hsw : skipWs (JArr.dumpsElems (.cons h t) ++ ']' :: rest) =
            JArr.dumpsElems (.cons h t) ++ ']' :: rest := by
          rw [hsh]
          exact skipWs_cons_false _ _ hws2
        simp only [parseVal]
        rw [if_neg (show ¬('[' = 'n') by decide), if_neg (show ¬('[' = 't') by decide),
          if_neg (show ¬('[' = 'f') by decide), if_neg (show ¬('[' = '"') by decide),
          if_pos trivial]
        rw [hsw, hsh]
        simp only [if_neg hne2]
        rw [← hsh, parseElems_dumps fuel (.cons h t) rest (by simp) hu' hf']
        rfl
    | obj o =>
      cases o with
      | nil =>
        rw [show J.dumps (J.obj .nil) ++ rest = '{' :: '}' :: rest from by
          simp [J.dumps, JObj.dumpsMembers]]
        have hsw : skipWs ('}' :: rest) = '}' :: rest := skipWs_cons_false _ _ (by decide)
        simp only [parseVal, reduceIte, hsw]
        rw [if_neg (show ¬('{' = 'n') by decide), if_neg (show ¬('{' = 't') by decide),
          if_neg (show ¬('{' = 'f') by decide), if_neg (show ¬('{' = '"') by decide),
          if_neg (show ¬('{' = '[') by decide)]
      | cons k v t =>
        have hu2 : JObj.uniqKeysO (.cons k v t) = true := by simpa [J.uniqKeys] using hu
        have hf' : JObj.needFO (.cons k v t) ≤ fuel := by simp [J.needF] at hf; omega
        obtain ⟨ct2, hsh⟩ := dumpsMembers_cons_head k v t ('}' :: rest)
        rw [show J.dumps (J.obj (.cons k v t)) ++ rest =
            '{' :: (JObj.dumpsMembers (.cons k v t) ++ '}' :: rest) from by simp [J.dumps]]
        have hsw : skipWs (JObj.dumpsMembers (.cons k v t) ++ '}' :: rest) =
            JObj.dumpsMembers (.cons k v t) ++ '}' :: rest := by
          rw [hsh]
          exact skipWs_cons_false _ _ (by decide)
        have hne2 : ¬('"' = '}') := by decide
        simp only [parseVal]
        rw [if_neg (show ¬('{' = 'n') by decide), if_neg (show ¬('{' = 't') by decide),
          if_neg (show ¬('{' = 'f') by decide), if_neg (show ¬('{' = '"') by decide),
          if_neg (show ¬('{' = '[') by decide), if_pos trivial]
        rw [hsw, hsh]
        simp only [if_neg hne2]
        rw [← hsh, parseMembers_dumps fuel (.cons k v t) rest (by simp) hu2 hf']
        show some (J.obj (JObj.ofPairs (JObj.cons k v t).toPairs), rest) =
          some (J.obj (.cons k v t), rest)
        rw [JObj.ofPairs_toPairs (.cons k v t) hu2]
theorem parseElems_dumps : ∀ (fuel : Nat) (a : JArr) (rest : Str),
    a ≠ .nil → JArr.uniqKeysA a = true → JArr.needFA a ≤ fuel →
    parseElems fuel (JArr.dumpsElems a ++ ']' :: rest) = some (a, rest)
  | 0, a, rest => fun hne _ hf => by
    cases a with
    | nil => exact absurd rfl hne
    | cons h t => exact absurd hf (by simp [JArr.needFA])
  | fuel + 1, .nil, rest => fun hne _ _ => absurd rfl hne
  | fuel + 1, .cons h t, rest => fun _ hu hf => by
    have hu' := (by simpa [JArr.uniqKeysA, Bool.and_eq_true] using hu :
      J.uniqKeys h = true ∧ JArr.uniqKeysA t = true)
    cases t with
    | nil =>
      have hfh : J.needF h ≤ fuel := by simp [JArr.needFA] at hf; omega
      rw [show JArr.dumpsElems (.cons h .nil) ++ ']' :: rest = J.dumps h ++ ']' :: rest
        from by simp [JArr.dumpsElems]]
      have hpv := parseVal_dumps fuel h (']' :: rest) hu'.1 hfh
        (notDigitStart_cons _ _ (by decide))
      have hsw : skipWs (']' :: rest) = ']' :: rest := skipWs_cons_false _ _ (by decide)
      simp only [parseElems, hpv, hsw]
      rw [if_neg (show ¬(']' = ',') by decide), if_pos trivial]
    | cons h2 t2 =>
      have hfh : J.needF h ≤ fuel := by simp [JArr.needFA] at hf; omega
      have hft : JArr.needFA (.cons h2 t2) ≤ fuel := by
        simp [JArr.needFA] at hf ⊢
        omega
      rw [show JArr.dumpsElems (.cons h (.cons h2 t2)) ++ ']' :: rest =
          J.dumps h ++ (',' :: (JArr.dumpsElems (.cons h2 t2) ++ ']' :: rest)) from by
        simp [JArr.dumpsElems]]
      have hpv := parseVal_dumps fuel h
        (',' :: (JArr.dumpsElems (.cons h2 t2) ++ ']' :: rest)) hu'.1 hfh
        (notDigitStart_cons _ _ (by decide))
      have hsw1 : skipWs (',' :: (JArr.dumpsElems (.cons h2 t2) ++ ']' :: rest)) =
          ',' :: (JArr.dumpsElems (.cons h2 t2) ++ ']' :: rest) :=
        skipWs_cons_false _ _ (by decide)
      obtain ⟨c2, ct2, hsh, hws2, hne2⟩ := dumpsElems_cons_head h2 t2 (']' :: rest)
      have hsw2 : skipWs (JArr.dumpsElems (.cons h2 t2) ++ ']' :: rest) =
          JArr.dumpsElems (.cons h2 t2) ++ ']' :: rest := by
        rw [hsh]
        exact skipWs_cons_false _ _ hws2
      have hrec := parseElems_dumps fuel (.cons h2 t2) rest (by simp) hu'.2 hft
      simp only [parseElems, hpv, hsw1]
      rw [if_pos trivial]
      simp only [hsw2, hrec, Option.map_some']
theorem parseMembers_dumps : ∀ (fuel : Nat) (o : JObj) (rest : Str),
    o ≠ .nil → JObj.uniqKeysO o = true → JObj.needFO o ≤ fuel →
    parseMembers fuel (JObj.dumpsMembers o ++ '}' :: rest) = some (o.toPairs, rest)
  | 0, o, rest => fun hne _ hf => by
    cases o with
    | nil => exact absurd rfl hne
    | cons k v t => exact absurd hf (by simp [JObj.needFO])
  | fuel + 1, .nil, rest => fun hne _ _ => absurd rfl hne
  | fuel + 1, .cons k v t, rest => fun _ hu hf => by
    have hu' := (by simpa [JObj.uniqKeysO, Bool.and_eq_true, Bool.not_eq_true'] using hu :
      (t.hasKey k = false ∧ J.uniqKeys v = true) ∧ JObj.uniqKeysO t = true)
    cases t with
    | nil =>
      have hfv : J.needF v ≤ fuel := by simp [JObj.needFO] at hf; omega
      rw [show JObj.dumpsMembers (.cons k v .nil) ++ '}' :: rest =
          '"' :: (escString k ++ '"' :: (':' :: (J.dumps v ++ '}' :: rest))) from by
        simp [JObj.dumpsMembers, dumpStr]]
      have hps := parseStringBody_escString k (':' :: (J.dumps v ++ '}' :: rest))
      have hsw1 : skipWs (':' :: (J.dumps v ++ '}' :: rest)) =
          ':' :: (J.dumps v ++ '}' :: rest) := skipWs_cons_false _ _ (by decide)
      have hsw0 := skipWs_dumps_append v ('}' :: rest)
      have hpv := parseVal_dumps fuel v ('}' :: rest) hu'.1.2 hfv
        (notDigitStart_cons _ _ (by decide))
      have hsw2 : skipWs ('}' :: rest) = '}' :: rest := skipWs_cons_false _ _ (by decide)
      simp only [parseMembers, reduceIte, hps, hsw1, hsw0, hpv, hsw2, JObj.toPairs]
      rw [if_neg (show ¬('}' = ',') by decide)]
    | cons k2 v2 t2 =>
      have hfv : J.needF v ≤ fuel := by simp [JObj.needFO] at hf; omega
      have hft : JObj.needFO (.cons k2 v2 t2) ≤ fuel := by
        simp [JObj.needFO] at hf ⊢
        omega
      rw [show JObj.dumpsMembers (.cons k v (.cons k2 v2 t2)) ++ '}' :: rest =
          '"' :: (escString k ++ '"' :: (':' :: (J.dumps v ++ ',' ::
            (JObj.dumpsMembers (.cons k2 v2 t2) ++ '}' :: rest)))) from by
        simp [JObj.dumpsMembers, dumpStr]]
      have hps := parseStringBody_escString k
        (':' :: (J.dumps v ++ ',' :: (JObj.dumpsMembers (.cons k2 v2 t2) ++ '}' :: rest)))
      have hsw1 : skipWs (':' :: (J.dumps v ++ ',' ::
          (JObj.dumpsMembers (.cons k2 v2 t2) ++ '}' :: rest))) =
          ':' :: (J.dumps v ++ ',' ::
            (JObj.dumpsMembers (.cons k2 v2 t2) ++ '}' :: rest)) :=
        skipWs_cons_false _ _ (by decide)
      have hsw0 := skipWs_dumps_append v
        (',' :: (JObj.dumpsMembers (.cons k2 v2 t2) ++ '}' :: rest))
      have hpv := parseVal_dumps fuel v
        (',' :: (JObj.dumpsMembers (.cons k2 v2 t2) ++ '}' :: rest)) hu'.1.2 hfv
        (notDigitStart_cons _ _ (by decide))
      have hsw3 : skipWs (',' :: (JObj.dumpsMembers (.cons k2 v2 t2) ++ '}' :: rest)) =
          ',' :: (JObj.dumpsMembers (.cons k2 v2 t2) ++ '}' :: rest) :=
        skipWs_cons_false _ _ (by decide)
      obtain ⟨ct2, hsh⟩ := dumpsMembers_cons_head k2 v2 t2 ('}' :: rest)
      have hsw4 : skipWs (JObj.dumpsMembers (.cons k2 v2 t2) ++ '}' :: rest) =
          JObj.dumpsMembers (.cons k2 v2 t2) ++ '}' :: rest := by
        rw [hsh]
        exact skipWs_cons_false _ _ (by decide)
      have hrec := parseMembers_dumps fuel (.cons k2 v2 t2) rest (by simp) hu'.2 hft
      simp only [parseMembers, reduceIte, hps, hsw1, hsw0, hpv, hsw3, hsw4, hrec,
        Option.map_some', JObj.toPairs]
end

/-! ### C5 round-trip, step 5: loading and re-serializing one line -/

theorem loads_dumps (v : J) (hu : J.uniqKeys v = true) : loads (J.dumps v) = some v := by
  obtain ⟨c, t, he, hws, _, _, _⟩ := dumps_head v
  have hsw : skipWs (J.dumps v) = J.dumps v := by
    rw [he]
    exact skipWs_cons_false _ _ hws
  have hf : J.needF v ≤ (J.dumps v).length + 1 := Nat.le_succ_of_le (J.needF_le v)
  have hpv := parseVal_dumps ((J.dumps v).length + 1) v [] hu hf trivial
  rw [List.append_nil] at hpv
  have h0 : skipWs ([] : Str) = [] := rfl
  simp only [loads, hsw, hpv, h0, reduceIte]

theorem pyStrip_dumps_obj (o : JObj) : pyStrip (J.dumps (J.obj o)) = J.dumps (J.obj o) := by
  have h1 : isPySpace '{' = false := by decide
  have h2 : isPySpace '}' = false := by decide
  rw [show J.dumps (J.obj o) = '{' :: (JObj.dumpsMembers o ++ ['}']) from rfl]
  simp [pyStrip, List.dropWhile_cons, h1, h2, List.reverse_append]

theorem JObj.get?_none_of_keys : ∀ (o : JObj) (k : Str),
    (∀ k2 ∈ o.keys, k2 ≠ k) → o.get? k = none
  | .nil, k, _ => rfl
  | .cons k0 v0 t, k, h => by
    have h0 : ¬(k0 = k) := h k0 (by simp [JObj.keys])
    rw [JObj.get?, if_neg h0]
    exact JObj.get?_none_of_keys t k (fun k2 hk2 => h k2 (by simp [JObj.keys, hk2]))

theorem JObj.filterKeys_set_not : ∀ (o : JObj) (k : Str) (v : J) (p : Str → Bool),
    p k = false → o.hasKey k = false → (o.set k v).filterKeys p = o.filterKeys p
  | .nil, k, v, p, hp, _ => by simp [JObj.set, JObj.filterKeys, hp]
  | .cons k0 v0 t, k, v, p, hp, hk => by
    have h0 : ¬(k0 = k) := fun h => by
      simp [JObj.hasKey, JObj.get?, h] at hk
    have hk' : t.hasKey k = false := by
      simpa [JObj.hasKey, JObj.get?, h0] using hk
    rw [show (JObj.cons k0 v0 t).set k v = JObj.cons k0 v0 (t.set k v) from by
      simp [JObj.set, h0]]
    by_cases hpk : p k0 <;>
      simp [JObj.filterKeys, hpk, JObj.filterKeys_set_not t k v p hp hk']

theorem JObj.filterKeys_all : ∀ (o : JObj) (p : Str → Bool),
    (∀ k ∈ o.keys, p k = true) → o.filterKeys p = o
  | .nil, _, _ => rfl
  | .cons k v t, p, h => by
    have hk : p k = true := h k (by simp [JObj.keys])
    simp [JObj.filterKeys, hk,
      JObj.filterKeys_all t p (fun k2 hk2 => h k2 (by simp [JObj.keys, hk2]))]

theorem serializeRecord_parseError (line : Str) (i : Nat) :
    serializeRecord (parseErrorRecord line i) = line := by
  have h1 : (parseErrorRecord line i).get? (strLit "_parse_error") = some (J.bool true) := by
    rw [show parseErrorRecord line i = JObj.cons (strLit "_raw") (J.str line)
      (JObj.cons (strLit "_parse_error") (J.bool true)
      (JObj.cons (strLit "_line_index") (J.num i) JObj.nil)) from rfl]
    rw [JObj.get?, if_neg (by decide), JObj.get?, if_pos rfl]
  have h2 : (parseErrorRecord line i).get? (strLit "_raw") = some (J.str line) := by
    rw [show parseErrorRecord line i = JObj.cons (strLit "_raw") (J.str line)
      (JObj.cons (strLit "_parse_error") (J.bool true)
      (JObj.cons (strLit "_line_index") (J.num i) JObj.nil)) from rfl]
    rw [JObj.get?, if_pos rfl]
  simp only [serializeRecord, JObj.getD, h1, h2, Option.getD_some, pyTruthy, reduceIte]

theorem serializeRecord_loaded (o : JObj) (i : Nat)
    (hk : ∀ k ∈ o.keys, startsUnderscore k = false) :
    serializeRecord (o.set (strLit "_line_index") (J.num i)) = J.dumps (J.obj o) := by
  have hne1 : ∀ k2 ∈ o.keys, k2 ≠ strLit "_parse_error" := fun k2 hk2 he => by
    have := hk k2 hk2
    rw [he] at this
    exact absurd this (by decide)
  have hne2 : ∀ k2 ∈ o.keys, k2 ≠ strLit "_line_index" := fun k2 hk2 he => by
    have := hk k2 hk2
    rw [he] at this
    exact absurd this (by decide)
  have h1 : (o.set (strLit "_line_index") (J.num i)).get? (strLit "_parse_error") = none := by
    rw [JObj.get?_set_ne o _ _ _ (by decide)]
    exact JObj.get?_none_of_keys o _ hne1
  have h2 : o.hasKey (strLit "_line_index") = false := by
    rw [JObj.hasKey, JObj.get?_none_of_keys o _ hne2]
    rfl
  have h3 : (o.set (strLit "_line_index") (J.num i)).filterKeys
      (fun k => ! startsUnderscore k) = o := by
    rw [JObj.filterKeys_set_not o _ _ _ (by decide) h2,
      JObj.filterKeys_all o _ (fun k hk2 => by simp [hk k hk2])]
  simp only [serializeRecord, JObj.getD, h1, Option.getD_none, pyTruthy, Bool.false_eq_true,
    if_false, h3]

/-! ### C5: the load/save round-trip -/

/-- A transcript line already in canonical form: either the compact
serialization of a JSON object carrying no internal (`_`-prefixed) keys —
exactly what `save_messages` emits for a parsed record — or a non-blank,
already-stripped line that does not parse (kept verbatim via `_raw`). -/
def GoodLine (l : Str) : Prop :=
  (∃ o : JObj, JObj.uniqKeysO o = true ∧ (∀ k ∈ o.keys, startsUnderscore k = false) ∧
    l = J.dumps (J.obj o)) ∨
  (pyStrip l = l ∧ l ≠ [] ∧ loads l = none)

theorem loadLines_roundtrip : ∀ (i : Nat) (lines : List Str),
    (∀ l ∈ lines, GoodLine l) →
    ∃ msgs, loadLines i lines = some msgs ∧
      (msgs.map (fun m => serializeRecord m ++ ['\n'])).flatten = linesToFile lines
  | _, [], _ => ⟨[], rfl, rfl⟩
  | i, line :: rest, h => by
    obtain ⟨msgs, hm1, hm2⟩ := loadLines_roundtrip (i + 1) rest
      (fun l hl => h l (List.mem_cons_of_mem line hl))
    rcases h line (List.mem_cons_self line rest) with ⟨o, ho1, ho2, rfl⟩ | ⟨hs, hne, hl⟩
    · -- the line is a serialized object
      have hstrip := pyStrip_dumps_obj o
      have hempty : (J.dumps (J.obj o)).isEmpty = false := by
        rw [show J.dumps (J.obj o) = '{' :: (JObj.dumpsMembers o ++ ['}']) from rfl]
        rfl
      have hloads : loads (J.dumps (J.obj o)) = some (J.obj o) :=
        loads_dumps (J.obj o) (by simpa [J.uniqKeys] using ho1)
      refine ⟨(o.set (strLit "_line_index") (J.num i)) :: msgs, ?_, ?_⟩
      · simp only [loadLines, hstrip, hempty, Bool.false_eq_true, if_false, hloads, hm1,
          Option.map_some']
      · simp [linesToFile, hm2, serializeRecord_loaded o i ho2]
    · -- the line does not parse and is kept verbatim
      have hempty2 : line.isEmpty = false := by
        cases line with
        | nil => exact absurd rfl hne
        | cons c t => rfl
      refine ⟨parseErrorRecord line i :: msgs, ?_, ?_⟩
      · simp only [loadLines, hs, hempty2, Bool.false_eq_true, if_false, hl, hm1,
          Option.map_some']
      · simp [linesToFile, hm2, serializeRecord_parseError line i]

/-- C5: `save_messages` after `load_messages` reproduces the file
byte-for-byte, for every file whose lines are already in canonical form:
each line is either the compact serialization of a JSON object with no
`_`-prefixed keys, or a non-blank already-stripped unparseable line (written
back verbatim through its `_raw` parse-error record).  In particular the
`_line_index` annotation added while loading is never serialized. -/
theorem c5_load_save_roundtrip (lines : List Str) (h : ∀ l ∈ lines, GoodLine l) :
    ∃ msgs, load_messages lines = some msgs ∧ save_messages msgs = linesToFile lines := by
  obtain ⟨msgs, h1, h2⟩ := loadLines_roundtrip 0 lines h
  exact ⟨msgs, h1, h2⟩

/-- A concrete record for the C5 witness. -/
def c5wObj : JObj :=
  .cons (strLit "type") (J.str (strLit "user"))
  (.cons (strLit "n") (J.num (-3))
  (.cons (strLit "msg") (J.obj (.cons (strLit "content")
      (J.arr (.cons (J.str (strLit "a b")) .nil)) .nil)) .nil))

/-- C5 witness: the round-trip theorem applied to a concrete two-line file —
one serialized object and one unparseable line. -/
theorem c5_load_save_roundtrip_witness :
    ∃ msgs, load_messages [J.dumps (J.obj c5wObj), strLit "not json"] = some msgs ∧
      save_messages msgs = linesToFile [J.dumps (J.obj c5wObj), strLit "not json"] := by
  refine c5_load_save_roundtrip _ ?_
  intro l hl
  rcases List.mem_cons.mp hl with rfl | hl2
  · exact Or.inl ⟨c5wObj, by decide, by decide, rfl⟩
  · rcases List.mem_cons.mp hl2 with rfl | hl3
    · exact Or.inr ⟨by decide, by decide, by decide⟩
    · exact absurd hl3 (List.not_mem_nil l)
